import Mathlib

/-!
Verification of the rlox front end: a shallow embedding of the scanner
(src/scanner.rs), parser (src/parser.rs) and tree-walking evaluator
(src/expression/interpreter.rs), followed by theorems settling the
specification claims.

Modelling conventions:
  * Rust `f64` number payloads are modelled as exact rationals (`Rat`);
    every numeric literal and arithmetic step exercised by the claims is
    exactly representable in binary64, so the model agrees with the code
    on those inputs.  IEEE-specific values (infinity, NaN) are not
    distinguished; only the Ok/Err structure of operations is at stake.
  * Source strings are indexed by character position (the code is only
    exercised on ASCII, where char and byte indices coincide).
  * A Rust panic (`unwrap` on `None`, index out of bounds, `unreachable!`)
    is modelled as the `Option` value `none` or a dedicated `panicked`
    outcome.
  * The diagnostic reporter is an external collaborator: reported errors
    are accumulated in a list instead of terminating the process.
  * Loops are given explicit fuel; every claim either evaluates the model
    on concrete input (where the supplied fuel is exact) or is proved for
    all fuel values, and for the parser a fuel-sufficiency lemma shows the
    budget `13 * length + 21` never runs out.
-/

namespace RLox

/-- Token kinds, from `TokenType` in src/token.rs. -/
inductive TokenType where
  | LeftParen | RightParen | LeftBrace | RightBrace
  | Comma | Dot | Minus | Plus | Semicolon | Slash | Star
  | Bang | BangEqual | Equal | EqualEqual
  | Greater | GreaterEqual | Less | LessEqual
  | Identifier | String | Number
  | And | Class | Else | False | Fun | For | If | Nil | Or
  | Print | Return | Super | This | True | Var | While
  | EOF
deriving DecidableEq, Repr

/-- Token literal payload, from `Literal` in src/token.rs (the placeholder
variant is spelled `Null` as in src/scanner.rs). -/
inductive Literal where
  | Str (s : List Char)
  | Number (n : Rat)
  | Null
deriving DecidableEq, Repr

/-- A token, from `Token` in src/token.rs. -/
structure Token where
  token_type : TokenType
  lexeme : List Char
  literal : Literal
  line : Nat
deriving DecidableEq, Repr

/-- `&source[a..b]` on character positions. -/
def sub (src : List Char) (a b : Nat) : List Char :=
  (src.drop a).take (b - a)

/-- `Scanner::is_digit` (ASCII digit test). -/
def isDigit (c : Char) : Bool := c.isDigit

/-- `Scanner::is_alpha` (ASCII letters and underscore). -/
def isAlpha (c : Char) : Bool := c.isUpper || c.isLower || c = '_'

/-- `Scanner::is_alpha_numeric`. -/
def isAlphaNumeric (c : Char) : Bool := isAlpha c || isDigit c

/-- The reserved-word table `KEYWORDS` of src/scanner.rs. -/
def KEYWORDS : List (List Char × TokenType) :=
  [("and".toList, .And), ("class".toList, .Class), ("else".toList, .Else),
   ("false".toList, .False), ("for".toList, .For), ("fun".toList, .Fun),
   ("if".toList, .If), ("nil".toList, .Nil), ("or".toList, .Or),
   ("print".toList, .Print), ("return".toList, .Return),
   ("super".toList, .Super), ("this".toList, .This), ("true".toList, .True),
   ("var".toList, .Var), ("while".toList, .While)]

/-- `KEYWORDS.get(text)`. -/
def keywordType (text : List Char) : Option TokenType :=
  (KEYWORDS.find? (fun p => p.1 == text)).map (fun p => p.2)

/-- `Scanner::next_char_matches`: peek one character and consume it when it
is the expected one.  Returns the flag together with the new cursor. -/
def nextCharMatches (src : List Char) (cur : Nat) (c : Char) : Bool × Nat :=
  match src.get? cur with
  | none => (false, cur)
  | some e => if e = c then (true, cur + 1) else (false, cur)

/-- The loop of `Scanner::identifier`: advance while the next character is
alphanumeric.  The fuel argument dominates the remaining input. -/
def identEnd (src : List Char) : Nat → Nat → Nat
  | 0, cur => cur
  | k + 1, cur =>
    match src.get? cur with
    | none => cur
    | some c => if isAlphaNumeric c then identEnd src k (cur + 1) else cur

/-- The digit loop of `Scanner::number`: `while is_digit(peek().unwrap())`.
Reaching end of input calls `unwrap` on `None`, a panic, modelled as
`none`. -/
def digitsEnd (src : List Char) : Nat → Nat → Option Nat
  | 0, _ => none
  | k + 1, cur =>
    match src.get? cur with
    | none => none
    | some c => if isDigit c then digitsEnd src k (cur + 1) else some cur

/-- The loop of `Scanner::string`: advance to the closing quote or to end of
input, counting newlines.  Returns the stopping position and line. -/
def stringScan (src : List Char) : Nat → Nat → Nat → Nat × Nat
  | 0, cur, line => (cur, line)
  | k + 1, cur, line =>
    match src.get? cur with
    | none => (cur, line)
    | some c =>
      if c = '\"' then (cur, line)
      else stringScan src k (cur + 1) (if c = '\n' then line + 1 else line)

/-- The line-comment loop in `Scanner::scan_tokens`: advance to the next
newline or end of input. -/
def commentEnd (src : List Char) : Nat → Nat → Nat
  | 0, cur => cur
  | k + 1, cur =>
    match src.get? cur with
    | none => cur
    | some c => if c = '\n' then cur else commentEnd src k (cur + 1)

/-- Numeric value of a run of ASCII digits. -/
def digitsVal (cs : List Char) : Nat :=
  cs.foldl (fun a c => a * 10 + (c.toNat - 48)) 0

/-- `lexeme.parse::<f64>()` restricted to the shapes the scanner produces
(`digits` or `digits.digits`), with the payload modelled exactly as a
rational. -/
def parseNumberOpt (cs : List Char) : Option Rat :=
  match cs.splitOn '.' with
  | [ds] =>
    if !ds.isEmpty && ds.all isDigit then some (digitsVal ds) else none
  | [ds, fs] =>
    if !ds.isEmpty && !fs.isEmpty && ds.all isDigit && fs.all isDigit then
      some ((digitsVal ds : Rat) + (digitsVal fs : Rat) / ((10 : Rat) ^ fs.length))
    else none
  | _ => none

/-- One iteration of the dispatch `match` in `Scanner::scan_tokens`, after
the first character `c` of the lexeme (starting at `start`) has been
consumed.  Returns the new cursor, the new line, the tokens appended and
the diagnostics reported, or `none` when the code panics. -/
def scanDispatch (src : List Char) (start : Nat) (c : Char) (line : Nat) :
    Option (Nat × Nat × List Token × List (Nat × String)) :=
  let cur := start + 1
  let tok := fun (tt : TokenType) (lit : Literal) (cur' : Nat) =>
    Token.mk tt (sub src start cur') lit line
  if c = '(' then some (cur, line, [tok .LeftParen .Null cur], [])
  else if c = ')' then some (cur, line, [tok .RightParen .Null cur], [])
  else if c = Char.ofNat 123 then some (cur, line, [tok .LeftBrace .Null cur], [])
  else if c = Char.ofNat 125 then some (cur, line, [tok .RightBrace .Null cur], [])
  else if c = ',' then some (cur, line, [tok .Comma .Null cur], [])
  else if c = '.' then some (cur, line, [tok .Dot .Null cur], [])
  else if c = '-' then some (cur, line, [tok .Minus .Null cur], [])
  else if c = '+' then some (cur, line, [tok .Plus .Null cur], [])
  else if c = ';' then some (cur, line, [tok .Semicolon .Null cur], [])
  else if c = '*' then some (cur, line, [tok .Star .Null cur], [])
  else if c = '!' then
    -- note the inverted branch in the source: the two-character lookahead
    -- match emits `Bang`, the single `!` emits `BangEqual`
    match nextCharMatches src cur '=' with
    | (true, cur') => some (cur', line, [tok .Bang .Null cur'], [])
    | (false, cur') => some (cur', line, [tok .BangEqual .Null cur'], [])
  else if c = '=' then
    match nextCharMatches src cur '=' with
    | (true, cur') => some (cur', line, [tok .EqualEqual .Null cur'], [])
    | (false, cur') => some (cur', line, [tok .Equal .Null cur'], [])
  else if c = '<' then
    match nextCharMatches src cur '=' with
    | (true, cur') => some (cur', line, [tok .LessEqual .Null cur'], [])
    | (false, cur') => some (cur', line, [tok .Less .Null cur'], [])
  else if c = '>' then
    match nextCharMatches src cur '=' with
    | (true, cur') => some (cur', line, [tok .GreaterEqual .Null cur'], [])
    | (false, cur') => some (cur', line, [tok .Greater .Null cur'], [])
  else if c = '/' then
    match nextCharMatches src cur '/' with
    | (true, cur') => some (commentEnd src (src.length + 1) cur', line, [], [])
    | (false, cur') => some (cur', line, [tok .Slash .Null cur'], [])
  else if c == ' ' || c == '\r' || c == '\t' then some (cur, line, [], [])
  else if c = '\n' then some (cur, line + 1, [], [])
  else if c = '\"' then
    match stringScan src (src.length + 1) cur line with
    | (e, line') =>
      match src.get? e with
      | none => some (e, line', [], [(line', "Unterminated String")])
      | some _ =>
        some (e + 1, line',
          [Token.mk .String (sub src start (e + 1)) (.Str (sub src (start + 1) e)) line'], [])
  else if isDigit c then
    match digitsEnd src (src.length + 1) cur with
    | none => none
    | some e1 =>
      match
        (if (src.get? e1 == some '.') && ((src.get? (e1 + 1)).any isDigit) then
          digitsEnd src (src.length + 1) (e1 + 1)
        else some e1) with
      | none => none
      | some e2 =>
        match parseNumberOpt (sub src start e2) with
        | none => none
        | some v =>
          some (e2, line, [Token.mk .Number (sub src start e2) (.Number v) line], [])
  else if isAlpha c then
    let e := identEnd src (src.length + 1) cur
    let text := sub src start e
    match keywordType text with
    | some tt => some (e, line, [Token.mk tt text .Null line], [])
    | none => some (e, line, [Token.mk .Identifier text .Null line], [])
  else some (cur, line, [], [(line, "Unexpected character.")])

/-- Outcome of the scanning loop. -/
inductive ScanOut where
  | ok (tokens : List Token) (errs : List (Nat × String))
  | panicked
  | fuelOut
deriving DecidableEq, Repr

/-- The main loop of `Scanner::scan_tokens`; appends the trailing EOF token
when the input is exhausted. -/
def scanLoop (src : List Char) : Nat → Nat → Nat → List Token → List (Nat × String) → ScanOut
  | 0, _, _, _, _ => .fuelOut
  | fuel + 1, current, line, tokens, errs =>
    match src.get? current with
    | none => .ok (tokens ++ [Token.mk .EOF [] .Null line]) errs
    | some c =>
      match scanDispatch src current c line with
      | none => .panicked
      | some (cur', line', ts', errs') =>
        scanLoop src fuel cur' line' (tokens ++ ts') (errs ++ errs')

/-- `Scanner::parse`: scan a whole source string.  `none` is a panic. -/
def scanSource (src : String) : Option (List Token × List (Nat × String)) :=
  match scanLoop src.toList (src.toList.length + 1) 0 1 [] [] with
  | .ok ts es => some (ts, es)
  | _ => none

/-- Expression literals, from `ExprLiteral` in src/expression/mod.rs. -/
inductive ExprLiteral where
  | String (s : List Char)
  | Number (n : Rat)
  | Nil
  | Bool (b : Bool)
deriving DecidableEq, Repr

/-- The expression AST, from `Expression` in src/expression/mod.rs. -/
inductive Expression where
  | Binary (left : Expression) (operator : Token) (right : Expression)
  | Literal (value : ExprLiteral)
  | Grouping (expr : Expression)
  | Unary (operator : Token) (right : Expression)
deriving DecidableEq, Repr

/-- Outcome of a parser method: success or `ParseError` carry the reported
message and the final cursor; `panicked` is an index-out-of-bounds panic in
`peek`/`previous`; `fuelOut` marks exhausted fuel (shown unreachable for
the budget used by `parseTokens`). -/
inductive PRes where
  | ok (e : Expression) (cur : Nat)
  | fail (msg : String) (cur : Nat)
  | panicked
  | fuelOut
deriving DecidableEq, Repr

/-- `Parser::check`: `false` at EOF, otherwise compare the peeked kind.
`none` when `peek` indexes out of bounds. -/
def checkF (ts : List Token) (cur : Nat) (tt : TokenType) : Option Bool :=
  match ts.get? cur with
  | none => none
  | some t =>
    if t.token_type = .EOF then some false else some (t.token_type = tt)

/-- `Parser::advance`: step the cursor unless at EOF and return
`previous()`.  `none` when an index panics. -/
def advanceF (ts : List Token) (cur : Nat) : Option (Token × Nat) :=
  match ts.get? cur with
  | none => none
  | some t =>
    let cur' := if t.token_type = .EOF then cur else cur + 1
    if cur' = 0 then none
    else
      match ts.get? (cur' - 1) with
      | none => none
      | some p => some (p, cur')

/-- `Parser::matches`: try each kind in order, consuming the token on the
first hit. -/
def matchesF (ts : List Token) (cur : Nat) : List TokenType → Option (Bool × Nat)
  | [] => some (false, cur)
  | tt :: rest =>
    match checkF ts cur tt with
    | none => none
    | some true =>
      match advanceF ts cur with
      | none => none
      | some (_, cur') => some (true, cur')
    | some false => matchesF ts cur rest

/-- The operator set of each binary grammar level: 5 = equality,
4 = comparison, 3 = term, 2 = factor. -/
def opsFor : Nat → List TokenType
  | 5 => [.BangEqual, .EqualEqual]
  | 4 => [.Greater, .GreaterEqual, .Less, .LessEqual]
  | 3 => [.Minus, .Plus]
  | 2 => [.Slash, .Star]
  | _ => []

mutual
/-- The grammar methods of src/parser.rs, indexed by precedence level:
0 = `primary`, 1 = `unary`, 2 = `factor`, 3 = `term`, 4 = `comparison`,
5 = `equality`, 6 = `expression` (which simply delegates to `equality`,
so levels 5 and 6 behave identically through `opsFor`). -/
def parseLevel (ts : List Token) : Nat → Nat → Nat → PRes
  | 0, _, _ => .fuelOut
  | f + 1, 0, cur => primaryF ts f cur
  | f + 1, 1, cur =>
    match matchesF ts cur [.Bang, .Minus] with
    | none => .panicked
    | some (true, cur') =>
      match ts.get? (cur' - 1) with
      | none => .panicked
      | some op =>
        match parseLevel ts f 1 cur' with
        | .ok right cur'' => .ok (.Unary op right) cur''
        | r => r
    | some (false, _) => parseLevel ts f 0 cur
  | f + 1, lvl + 2, cur =>
    match parseLevel ts f (lvl + 1) cur with
    | .ok e cur' => binLoop ts f (lvl + 2) e cur'
    | r => r
  termination_by structural f => f

/-- The `while self.matches(..)` loop shared by the binary grammar levels:
fold matched operators into a left-associative `Binary` chain. -/
def binLoop (ts : List Token) : Nat → Nat → Expression → Nat → PRes
  | 0, _, _, _ => .fuelOut
  | f + 1, lvl, e, cur =>
    match matchesF ts cur (opsFor lvl) with
    | none => .panicked
    | some (false, cur0) => .ok e cur0
    | some (true, cur') =>
      match ts.get? (cur' - 1) with
      | none => .panicked
      | some op =>
        match parseLevel ts f (lvl - 1) cur' with
        | .ok right cur'' => binLoop ts f lvl (.Binary e op right) cur''
        | r => r
  termination_by structural f => f

/-- `Parser::primary`. -/
def primaryF (ts : List Token) : Nat → Nat → PRes
  | 0, _ => .fuelOut
  | f + 1, cur =>
    match matchesF ts cur [.False] with
    | none => .panicked
    | some (true, cur') => .ok (.Literal (.Bool false)) cur'
    | some (false, _) =>
    match matchesF ts cur [.True] with
    | none => .panicked
    | some (true, cur') => .ok (.Literal (.Bool true)) cur'
    | some (false, _) =>
    match matchesF ts cur [.Nil] with
    | none => .panicked
    | some (true, cur') => .ok (.Literal .Nil) cur'
    | some (false, _) =>
    match matchesF ts cur [.Number] with
    | none => .panicked
    | some (true, cur') =>
      (match ts.get? (cur' - 1) with
       | none => .panicked
       | some t =>
         match t.literal with
         | .Number v => .ok (.Literal (.Number v)) cur'
         | _ =>
           match ts.get? cur' with
           | none => .panicked
           | some _ => .fail "error parsing Number" cur')
    | some (false, _) =>
    match matchesF ts cur [.String] with
    | none => .panicked
    | some (true, cur') =>
      (match ts.get? (cur' - 1) with
       | none => .panicked
       | some t =>
         match t.literal with
         | .Str s => .ok (.Literal (.String s)) cur'
         | _ =>
           match ts.get? cur' with
           | none => .panicked
           | some _ => .fail "error parsing Strings" cur')
    | some (false, _) =>
    match matchesF ts cur [.LeftParen] with
    | none => .panicked
    | some (true, cur') =>
      (match parseLevel ts f 6 cur' with
       | .ok e cur'' =>
         (match checkF ts cur'' .RightParen with
          | none => .panicked
          | some true =>
            (match advanceF ts cur'' with
             | none => .panicked
             | some (_, cur3) => .ok (.Grouping e) cur3)
          | some false => .fail "Expect \x27)\x27 after expression." cur'')
       | r => r)
    | some (false, _) => .fail "unexpected token" cur
  termination_by structural f => f
end

/-- The fuel budget used by `parseTokens`; shown sufficient below. -/
def parseFuel (ts : List Token) : Nat := 13 * ts.length + 21

/-- `Parser::parse` / `Parser::parse_tokens`: run `expression()` and turn a
`ParseError` into the `Nil` literal placeholder.  `none` is a panic. -/
def parseTokens (ts : List Token) : Option Expression :=
  match parseLevel ts (parseFuel ts) 6 0 with
  | .ok e _ => some e
  | .fail _ _ => some (.Literal .Nil)
  | _ => none

/-- `RuntimeError` of src/expression/interpreter.rs. -/
structure RuntimeError where
  msg : String
deriving DecidableEq, Repr

/-- Runtime values, from `Value` in src/expression/interpreter.rs. -/
inductive Value where
  | Str (s : List Char)
  | Number (n : Rat)
  | Nil
  | Bool (b : Bool)
deriving DecidableEq, Repr

/-- `RuntimeResult` (Rust `Result<Value, RuntimeError>`). -/
inductive RResult where
  | Ok (v : Value)
  | Err (e : RuntimeError)
deriving DecidableEq, Repr

/-- Decimal text of a rational, matching Rust `f64::to_string` on the
values exercised by the claims (integral values print without a fractional
part). -/
def fracDigits : Nat → Nat → Nat → List Char
  | _, _, 0 => []
  | n, d, f + 1 =>
    if n = 0 then []
    else
      (Nat.digitChar (n * 10 / d)) :: fracDigits (n * 10 % d) d f

/-- `n.to_string()` for the numeric payload. -/
def ratToChars (q : Rat) : List Char :=
  let sign : List Char := if q < 0 then ['-'] else []
  let a := q.num.natAbs
  let d := q.den
  let ip := a / d
  let fr := a % d
  sign ++ (Nat.repr ip).toList ++
    (if fr = 0 then [] else '.' :: fracDigits fr d 40)

namespace Value

/-- `Value::negative` (unary minus). -/
def negative : Value → RResult
  | .Number n => .Ok (.Number (-n))
  | _ => .Err ⟨"Cannot apply negative operand on non-numeric values"⟩

/-- `Value::into_bool` (truthiness; the result type is the inferred
`Bool`, which inside this namespace cannot be written by name). -/
def into_bool (v : Value) :=
  match v with
  | .Bool false => false
  | .Nil => false
  | .Number n => if n = 0 then false else true
  | _ => true

/-- `Value::ops_not` (unary bang). -/
def ops_not (v : Value) : RResult :=
  .Ok (.Bool (!v.into_bool))

/-- `Value::into_string`. -/
def into_string : Value → List Char
  | .Str s => s
  | .Number n => ratToChars n
  | .Nil => []
  | .Bool true => "true".toList
  | .Bool false => "false".toList

/-- `Value::add` (binary plus, with numeric-to-string promotion). -/
def add : Value → Value → RResult
  | .Str s1, .Str s2 => .Ok (.Str (s1 ++ s2))
  | .Number n1, .Number n2 => .Ok (.Number (n1 + n2))
  | .Str s, .Number n => .Ok (.Str (s ++ ratToChars n))
  | .Number n, .Str s => .Ok (.Str (ratToChars n ++ s))
  | _, _ => .Err ⟨"Cannot apply addition operand on non-numeric values"⟩

/-- `Value::sub`. -/
def sub : Value → Value → RResult
  | .Number n1, .Number n2 => .Ok (.Number (n1 - n2))
  | _, _ => .Err ⟨"Cannot apply subtraction operand on non-numeric values"⟩

/-- `Value::mul`. -/
def mul : Value → Value → RResult
  | .Number n1, .Number n2 => .Ok (.Number (n1 * n2))
  | _, _ => .Err ⟨"Cannot apply multiplication operand on non-numeric values"⟩

/-- `Value::div` (rational stand-in for floating-point division; the code
has no zero-divisor guard and this model keeps that structure). -/
def div : Value → Value → RResult
  | .Number n1, .Number n2 => .Ok (.Number (n1 / n2))
  | _, _ => .Err ⟨"Cannot apply division operand on non-numeric values"⟩

/-- `Value::gt`. -/
def gt : Value → Value → RResult
  | .Number n1, .Number n2 => .Ok (.Bool (decide (n1 > n2)))
  | _, _ => .Err ⟨"Cannot apply greater than operand on non-numeric values"⟩

/-- `Value::gte`. -/
def gte : Value → Value → RResult
  | .Number n1, .Number n2 => .Ok (.Bool (decide (n1 ≥ n2)))
  | _, _ => .Err ⟨"Cannot apply greater than or equal operand on non-numeric values"⟩

/-- `Value::lt`. -/
def lt : Value → Value → RResult
  | .Number n1, .Number n2 => .Ok (.Bool (decide (n1 < n2)))
  | _, _ => .Err ⟨"Cannot apply less than operand on non-numeric values"⟩

/-- `Value::lte`. -/
def lte : Value → Value → RResult
  | .Number n1, .Number n2 => .Ok (.Bool (decide (n1 ≤ n2)))
  | _, _ => .Err ⟨"Cannot apply less than or equal operand on non-numeric values"⟩

/-- `Value::eq` (binary `==`; total across types). -/
def eq : Value → Value → RResult
  | .Number n1, .Number n2 => .Ok (.Bool (decide (n1 = n2)))
  | .Str s1, .Str s2 => .Ok (.Bool (decide (s1 = s2)))
  | .Bool b1, .Bool b2 => .Ok (.Bool (decide (b1 = b2)))
  | .Nil, .Nil => .Ok (.Bool true)
  | _, _ => .Ok (.Bool false)

/-- `Value::neq` (binary `!=`; total across types). -/
def neq : Value → Value → RResult
  | .Number n1, .Number n2 => .Ok (.Bool (decide (n1 ≠ n2)))
  | .Str s1, .Str s2 => .Ok (.Bool (decide (s1 ≠ s2)))
  | .Bool b1, .Bool b2 => .Ok (.Bool (decide (b1 ≠ b2)))
  | .Nil, .Nil => .Ok (.Bool false)
  | _, _ => .Ok (.Bool true)

end Value

/-- `Interpreter::visit_literal`. -/
def litToValue : ExprLiteral → Value
  | .String s => .Str s
  | .Number n => .Number n
  | .Nil => .Nil
  | .Bool b => .Bool b

/-- The tree-walking evaluator (`Interpreter` with `Expression::accept`
dispatch).  `none` models the `unreachable!()` panics in `visit_binary`
and `visit_unary`. -/
def evalExpr : Expression → Option RResult
  | .Literal v => some (.Ok (litToValue v))
  | .Grouping e => evalExpr e
  | .Unary op r =>
    match evalExpr r with
    | none => none
    | some (.Err e) => some (.Err e)
    | some (.Ok rv) =>
      match op.token_type with
      | .Minus => some rv.negative
      | .Bang => some rv.ops_not
      | _ => none
  | .Binary l op r =>
    match evalExpr l with
    | none => none
    | some (.Err e) => some (.Err e)
    | some (.Ok lv) =>
      match evalExpr r with
      | none => none
      | some (.Err e) => some (.Err e)
      | some (.Ok rv) =>
        match op.token_type with
        | .Minus => some (lv.sub rv)
        | .Plus => some (lv.add rv)
        | .Slash => some (lv.div rv)
        | .Star => some (lv.mul rv)
        | .Greater => some (lv.gt rv)
        | .GreaterEqual => some (lv.gte rv)
        | .Less => some (lv.lt rv)
        | .LessEqual => some (lv.lte rv)
        | .BangEqual => some (lv.neq rv)
        | .EqualEqual => some (lv.eq rv)
        | _ => none

/-- Scan then parse, as in `run` of src/main.rs.  `none` is a panic in
either stage. -/
def parseSource (src : String) : Option Expression :=
  (scanSource src).bind (fun p => parseTokens p.1)

/-- The whole pipeline `scan → parse → evaluate` of `run` in src/main.rs.
`none` is a panic in any stage. -/
def evalSource (src : String) : Option RResult :=
  (parseSource src).bind (fun e => evalExpr e)

/-- Whether a `RuntimeResult` is the `Err` variant. -/
def RResult.isErrB : RResult → Bool
  | .Err _ => true
  | .Ok _ => false

/-- Whether a value is a `Number`. -/
def Value.isNumB (v : Value) :=
  match v with
  | .Number _ => true
  | _ => false

/-- Whether a value is a `Bool` or `Nil` (the pairings `Value::add`
rejects). -/
def Value.isBoolOrNil (v : Value) :=
  match v with
  | .Bool _ => true
  | .Nil => true
  | _ => false

/-- Whether two values have the same variant. -/
def sameKind : Value → Value → Bool
  | .Number _, .Number _ => true
  | .Str _, .Str _ => true
  | .Bool _, .Bool _ => true
  | .Nil, .Nil => true
  | _, _ => false

/-- The scanner invariant of claim C9: a `Number` token carries a `Number`
payload and a `String` token carries a `Str` payload. -/
def payloadInvB (t : Token) : Bool :=
  (match t.token_type, t.literal with
   | .Number, .Number _ => true
   | .Number, _ => false
   | _, _ => true) &&
  (match t.token_type, t.literal with
   | .String, .Str _ => true
   | .String, _ => false
   | _, _ => true)

/-- The ten binary operator kinds dispatched by `visit_binary`. -/
def binaryOps : List TokenType :=
  [.Minus, .Plus, .Slash, .Star, .Greater, .GreaterEqual, .Less, .LessEqual,
   .BangEqual, .EqualEqual]

/-- Well-formedness of an AST for the evaluator: every `Binary` operator is
one of the ten binary kinds and every `Unary` operator is `Bang` or
`Minus`, so no `unreachable!()` branch can be taken. -/
def wellFormedB : Expression → Bool
  | .Binary l op r =>
    binaryOps.contains op.token_type && wellFormedB l && wellFormedB r
  | .Unary op r =>
    (op.token_type == .Bang || op.token_type == .Minus) && wellFormedB r
  | .Literal _ => true
  | .Grouping e => wellFormedB e

/-- A token list containing an end-of-input token (every scanner output
does). -/
def hasEOF (ts : List Token) : Prop :=
  ∃ i t, ts.get? i = some t ∧ t.token_type = .EOF

/-- A successfully completed scan ends with the trailing EOF token. -/
theorem scanLoop_ok_getLast (src : List Char) :
    ∀ f current line tokens errs ts es,
      scanLoop src f current line tokens errs = .ok ts es →
      ∃ l, ts.getLast? = some (Token.mk .EOF [] .Null l) := by
  intro f
  induction f with
  | zero => intro current line tokens errs ts es h; simp [scanLoop] at h
  | succ f ih =>
    intro current line tokens errs ts es h
    cases hc : src.get? current with
    | none =>
      simp only [scanLoop, hc] at h
      cases h
      exact ⟨line, by simp⟩
    | some c =>
      cases hd : scanDispatch src current c line with
      | none =>
        simp only [scanLoop, hc, hd] at h
        exact ScanOut.noConfusion h
      | some q =>
        obtain ⟨cur', line', ts', errs'⟩ := q
        simp only [scanLoop, hc, hd] at h
        exact ih cur' line' (tokens ++ ts') (errs ++ errs') ts es h

/-- C1: claimed: each of `!`, `=`, `<`, `>` emits the two-character token
kind when followed by `=` and the one-character kind otherwise.  The code
agrees for `=`, `<`, `>`, but the `!` branch is inverted: `!=` scans to
`Bang` and a lone `!` scans to `BangEqual`.  This theorem records the
actual behaviour of all eight cases. -/
theorem claim_C1_two_char_operator_scan :
    scanSource "!=" =
      some ([Token.mk .Bang ['!', '='] .Null 1, Token.mk .EOF [] .Null 1], []) ∧
    scanSource "!" =
      some ([Token.mk .BangEqual ['!'] .Null 1, Token.mk .EOF [] .Null 1], []) ∧
    scanSource "==" =
      some ([Token.mk .EqualEqual ['=', '='] .Null 1, Token.mk .EOF [] .Null 1], []) ∧
    scanSource "=" =
      some ([Token.mk .Equal ['='] .Null 1, Token.mk .EOF [] .Null 1], []) ∧
    scanSource "<=" =
      some ([Token.mk .LessEqual ['<', '='] .Null 1, Token.mk .EOF [] .Null 1], []) ∧
    scanSource "<" =
      some ([Token.mk .Less ['<'] .Null 1, Token.mk .EOF [] .Null 1], []) ∧
    scanSource ">=" =
      some ([Token.mk .GreaterEqual ['>', '='] .Null 1, Token.mk .EOF [] .Null 1], []) ∧
    scanSource ">" =
      some ([Token.mk .Greater ['>'] .Null 1, Token.mk .EOF [] .Null 1], []) := by
  refine ⟨?_, ?_, ?_, ?_, ?_, ?_, ?_, ?_⟩ <;> decide

/-- C2: claimed: scanning is total, never panics and always ends the token
sequence with EOF.  The code panics (`peek().unwrap()` on `None` in
`Scanner::number`) whenever the input ends in the middle of a number, as
the evaluations on `"1"` and `"12.34"` show; when a scan does complete,
the sequence does end with the EOF token. -/
theorem claim_C2_scan_total_eof :
    scanSource "1" = none ∧
    scanSource "12.34" = none ∧
    scanDispatch ['1'] 0 '1' 1 = none ∧
    (∀ src ts es, scanSource src = some (ts, es) →
      ∃ l, ts.getLast? = some (Token.mk .EOF [] .Null l)) := by
  refine ⟨by decide, by decide, by decide, ?_⟩
  intro src ts es h
  unfold scanSource at h
  cases hs : scanLoop src.toList (src.toList.length + 1) 0 1 [] [] with
  | ok ts' es' =>
    rw [hs] at h
    cases h
    exact scanLoop_ok_getLast src.toList _ 0 1 [] [] ts es hs
  | panicked => rw [hs] at h; exact Option.noConfusion h
  | fuelOut => rw [hs] at h; exact Option.noConfusion h

/-- Witness for C2: the scan of the empty string completes and its last
token is the EOF token. -/
theorem claim_C2_scan_total_eof_witness :
    ∃ l, ([Token.mk .EOF [] .Null 1] : List Token).getLast? =
      some (Token.mk .EOF [] .Null l) :=
  claim_C2_scan_total_eof.2.2.2 "" [Token.mk .EOF [] .Null 1] [] (by decide)

/-- C4: the binary `+` concatenates two strings, adds two numbers,
promotes a number paired with a string to its decimal text (in operand
order), and errs exactly on the pairings involving `Bool` or `Nil`; the
spec example `123 + "123"` evaluates to the string `123123` through the
whole pipeline. -/
theorem claim_C4_add_semantics :
    (∀ s1 s2, Value.add (.Str s1) (.Str s2) = .Ok (.Str (s1 ++ s2))) ∧
    (∀ a b, Value.add (.Number a) (.Number b) = .Ok (.Number (a + b))) ∧
    (∀ s n, Value.add (.Str s) (.Number n) = .Ok (.Str (s ++ ratToChars n))) ∧
    (∀ n s, Value.add (.Number n) (.Str s) = .Ok (.Str (ratToChars n ++ s))) ∧
    (∀ v1 v2, (Value.add v1 v2).isErrB = (v1.isBoolOrNil || v2.isBoolOrNil)) ∧
    evalSource "123 + \"123\"" = some (.Ok (.Str "123123".toList)) := by
  refine ⟨fun s1 s2 => rfl, fun a b => rfl, fun s n => rfl, fun n s => rfl, ?_, ?_⟩
  · intro v1 v2; cases v1 <;> cases v2 <;> rfl
  · with_unfolding_all decide

/-- C5: `==` and `!=` always return `Ok` with a `Bool` (and are each
other's negation), same-variant pairs compare with ordinary equality, and
every cross-variant pair yields `false` for `==` and `true` for `!=`; the
spec pipeline examples agree. -/
theorem claim_C5_equality_total :
    (∀ v1 v2, ∃ b, Value.eq v1 v2 = .Ok (.Bool b) ∧
      Value.neq v1 v2 = .Ok (.Bool (!b))) ∧
    (∀ a b, Value.eq (.Number a) (.Number b) = .Ok (.Bool (decide (a = b)))) ∧
    (∀ s1 s2, Value.eq (.Str s1) (.Str s2) = .Ok (.Bool (decide (s1 = s2)))) ∧
    (∀ b1 b2, Value.eq (.Bool b1) (.Bool b2) = .Ok (.Bool (decide (b1 = b2)))) ∧
    (Value.eq .Nil .Nil = .Ok (.Bool true)) ∧
    (∀ v1 v2, sameKind v1 v2 = false →
      Value.eq v1 v2 = .Ok (.Bool false) ∧ Value.neq v1 v2 = .Ok (.Bool true)) ∧
    evalSource "123 + \"123\" == \"123123\"" = some (.Ok (.Bool true)) ∧
    evalSource "123 + \"123\" == 123123 + 1;" = some (.Ok (.Bool false)) := by
  refine ⟨?_, fun a b => rfl, fun s1 s2 => rfl, fun b1 b2 => rfl, rfl, ?_, ?_, ?_⟩
  · intro v1 v2
    cases v1 <;> cases v2 <;> refine ⟨_, rfl, ?_⟩ <;>
      simp [Value.neq, ne_eq, decide_not]
  · intro v1 v2 h
    cases v1 <;> cases v2 <;> first
      | exact ⟨rfl, rfl⟩
      | simp [sameKind] at h
  · with_unfolding_all decide
  · with_unfolding_all decide

/-- Witness for C5: a concrete cross-variant pair compares to `false` for
`==` and `true` for `!=`. -/
theorem claim_C5_equality_total_witness :
    Value.eq (.Number 1) (.Str ['a']) = .Ok (.Bool false) ∧
    Value.neq (.Number 1) (.Str ['a']) = .Ok (.Bool true) :=
  claim_C5_equality_total.2.2.2.2.2.1 (.Number 1) (.Str ['a']) (by decide)

/-- C6: claimed: `!` returns the Bool negation of truthiness (`false`,
`Nil` and `0` are falsy, all else truthy), and in particular `!0`, `!nil`
evaluate to `true` and `!1` to `false`.  The value-level semantics hold,
but the pipeline examples fail on the code: a lone `!` is scanned as
`BangEqual` (the inverted branch recorded under C1), so `!nil` fails to
parse and yields the `Nil` placeholder, while `!0` and `!1` panic in
`Scanner::number` before parsing; the source `!=0;` is the one the code
actually evaluates as a `Bang` application to `0`, producing `true`. -/
theorem claim_C6_truthiness :
    (∀ v, Value.ops_not v = .Ok (.Bool (!v.into_bool))) ∧
    (Value.into_bool (.Bool false) = false) ∧
    (Value.into_bool .Nil = false) ∧
    (∀ q, Value.into_bool (.Number q) = !(decide (q = 0))) ∧
    (∀ s, Value.into_bool (.Str s) = true) ∧
    (Value.into_bool (.Bool true) = true) ∧
    evalSource "!0" = none ∧
    evalSource "!1" = none ∧
    evalSource "!nil" = some (.Ok .Nil) ∧
    evalSource "!=0;" = some (.Ok (.Bool true)) := by
  refine ⟨fun v => rfl, rfl, rfl, ?_, fun s => rfl, rfl, ?_, ?_, ?_, ?_⟩
  · intro q; by_cases h : q = 0 <;> simp [Value.into_bool, h]
  · decide
  · decide
  · with_unfolding_all decide
  · with_unfolding_all decide

/-- C7: `-`, `*`, `/`, `>`, `>=`, `<`, `<=` (and unary `-`) err exactly
when an operand is not a `Number`; on two numbers each returns the
arithmetic or comparison result, and division never guards against a zero
divisor (it stays `Ok`). -/
theorem claim_C7_numeric_ops :
    (∀ v1 v2, (Value.sub v1 v2).isErrB = !(v1.isNumB && v2.isNumB)) ∧
    (∀ v1 v2, (Value.mul v1 v2).isErrB = !(v1.isNumB && v2.isNumB)) ∧
    (∀ v1 v2, (Value.div v1 v2).isErrB = !(v1.isNumB && v2.isNumB)) ∧
    (∀ v1 v2, (Value.gt v1 v2).isErrB = !(v1.isNumB && v2.isNumB)) ∧
    (∀ v1 v2, (Value.gte v1 v2).isErrB = !(v1.isNumB && v2.isNumB)) ∧
    (∀ v1 v2, (Value.lt v1 v2).isErrB = !(v1.isNumB && v2.isNumB)) ∧
    (∀ v1 v2, (Value.lte v1 v2).isErrB = !(v1.isNumB && v2.isNumB)) ∧
    (∀ v, (Value.negative v).isErrB = !v.isNumB) ∧
    (∀ a b, Value.sub (.Number a) (.Number b) = .Ok (.Number (a - b))) ∧
    (∀ a b, Value.mul (.Number a) (.Number b) = .Ok (.Number (a * b))) ∧
    (∀ a b, Value.div (.Number a) (.Number b) = .Ok (.Number (a / b))) ∧
    (∀ a b, Value.gt (.Number a) (.Number b) = .Ok (.Bool (decide (a > b)))) ∧
    (∀ a b, Value.gte (.Number a) (.Number b) = .Ok (.Bool (decide (a ≥ b)))) ∧
    (∀ a b, Value.lt (.Number a) (.Number b) = .Ok (.Bool (decide (a < b)))) ∧
    (∀ a b, Value.lte (.Number a) (.Number b) = .Ok (.Bool (decide (a ≤ b)))) ∧
    (∀ a, Value.negative (.Number a) = .Ok (.Number (-a))) ∧
    (∀ a, (Value.div (.Number a) (.Number 0)).isErrB = false) := by
  refine ⟨?_, ?_, ?_, ?_, ?_, ?_, ?_, ?_,
    fun a b => rfl, fun a b => rfl, fun a b => rfl, fun a b => rfl,
    fun a b => rfl, fun a b => rfl, fun a b => rfl, fun a => rfl, fun a => rfl⟩ <;>
    first
      | (intro v1 v2; cases v1 <;> cases v2 <;> rfl)
      | (intro v; cases v <;> rfl)

/-- C8: precedence and left-associativity through the whole pipeline: the
spec examples evaluate to `0` and `2.25`, and repeated operators of one
level fold into a left-leaning `Binary` chain. -/
theorem claim_C8_precedence_pipeline :
    parseSource "1 + 1 * 2 - 3;" =
      some (.Binary
        (.Binary (.Literal (.Number 1)) (Token.mk .Plus ['+'] .Null 1)
          (.Binary (.Literal (.Number 1)) (Token.mk .Star ['*'] .Null 1)
            (.Literal (.Number 2))))
        (Token.mk .Minus ['-'] .Null 1)
        (.Literal (.Number 3))) ∧
    evalSource "1 + 1 * 2 - 3;" = some (.Ok (.Number 0)) ∧
    evalSource "1 + 1 * 2 - 3 / 4;" = some (.Ok (.Number (9 / 4))) ∧
    parseSource "1 - 2 - 3;" =
      some (.Binary
        (.Binary (.Literal (.Number 1)) (Token.mk .Minus ['-'] .Null 1)
          (.Literal (.Number 2)))
        (Token.mk .Minus ['-'] .Null 1)
        (.Literal (.Number 3))) := by
  refine ⟨?_, ?_, ?_, ?_⟩ <;> with_unfolding_all decide

/-! Helper lemmas about the parser's cursor primitives. -/

/-- The cursor invariant maintained while parsing a token list that
contains an EOF token: some EOF token lies at or after the cursor. -/
def PInv (ts : List Token) (cur : Nat) : Prop :=
  ∃ i t, cur ≤ i ∧ ts.get? i = some t ∧ t.token_type = .EOF

theorem PInv.get_some {ts : List Token} {cur : Nat} (h : PInv ts cur) :
    ∃ t, ts.get? cur = some t := by
  obtain ⟨i, t, hle, hget, _⟩ := h
  have hi : i < ts.length := (List.get?_eq_some.mp hget).1
  have hcur : cur < ts.length := Nat.lt_of_le_of_lt hle hi
  exact ⟨ts.get ⟨cur, hcur⟩, List.get?_eq_get hcur⟩

theorem PInv.advance {ts : List Token} {cur : Nat} {t : Token} (h : PInv ts cur)
    (hget : ts.get? cur = some t) (hne : t.token_type ≠ .EOF) : PInv ts (cur + 1) := by
  obtain ⟨i, u, hle, hu, heof⟩ := h
  rcases Nat.lt_or_ge cur i with hlt | hge
  · exact ⟨i, u, hlt, hu, heof⟩
  · have : i = cur := Nat.le_antisymm (Nat.le_of_lt_succ (Nat.lt_succ_of_le hge)) hle
    subst this
    rw [hget] at hu
    cases hu
    exact absurd heof hne

theorem checkF_true {ts : List Token} {cur : Nat} {tt : TokenType}
    (h : checkF ts cur tt = some true) :
    ∃ t, ts.get? cur = some t ∧ t.token_type = tt ∧ t.token_type ≠ .EOF := by
  unfold checkF at h
  cases hg : ts.get? cur with
  | none => rw [hg] at h; exact Option.noConfusion h
  | some t =>
    rw [hg] at h
    by_cases he : t.token_type = .EOF
    · simp [he] at h
    · simp only [he, if_false] at h
      exact ⟨t, rfl, of_decide_eq_true (Option.some.inj h), he⟩

theorem checkF_none {ts : List Token} {cur : Nat} {tt : TokenType}
    (h : checkF ts cur tt = none) : ts.get? cur = none := by
  unfold checkF at h
  cases hg : ts.get? cur with
  | none => rfl
  | some t =>
    rw [hg] at h
    by_cases he : t.token_type = .EOF <;> simp [he] at h

theorem matchesF_false {ts : List Token} {cur : Nat} {tts : List TokenType} {c : Nat}
    (h : matchesF ts cur tts = some (false, c)) : c = cur := by
  induction tts with
  | nil => cases (Option.some.inj h); rfl
  | cons tt rest ih =>
    unfold matchesF at h
    cases hc : checkF ts cur tt with
    | none => rw [hc] at h; exact Option.noConfusion h
    | some b =>
      rw [hc] at h
      cases b with
      | true =>
        cases ha : advanceF ts cur with
        | none => simp [ha] at h
        | some p => simp [ha] at h
      | false => exact ih h

theorem matchesF_true {ts : List Token} {cur : Nat} {tts : List TokenType} {c : Nat}
    (h : matchesF ts cur tts = some (true, c)) :
    ∃ t, ts.get? cur = some t ∧ t.token_type ∈ tts ∧ t.token_type ≠ .EOF ∧
      c = cur + 1 := by
  induction tts with
  | nil => exact absurd (Option.some.inj h) (by simp)
  | cons tt rest ih =>
    unfold matchesF at h
    cases hc : checkF ts cur tt with
    | none => rw [hc] at h; exact Option.noConfusion h
    | some b =>
      rw [hc] at h
      cases b with
      | true =>
        obtain ⟨t, hg, htt, hne⟩ := checkF_true hc
        simp only [advanceF, hg, if_neg hne, Nat.add_sub_cancel,
          if_neg (Nat.succ_ne_zero cur), Option.some.injEq, Prod.mk.injEq,
          true_and] at h
        exact ⟨t, hg, by rw [htt]; exact List.mem_cons_self tt rest, hne, h.symm⟩
      | false =>
        obtain ⟨t, hg, hmem, hne, hc'⟩ := ih h
        exact ⟨t, hg, by simp [hmem], hne, hc'⟩

theorem matchesF_none {ts : List Token} {cur : Nat} {tts : List TokenType}
    (h : matchesF ts cur tts = none) : ts.get? cur = none := by
  induction tts with
  | nil => exact Option.noConfusion h
  | cons tt rest ih =>
    unfold matchesF at h
    cases hc : checkF ts cur tt with
    | none => exact checkF_none hc
    | some b =>
      rw [hc] at h
      cases b with
      | true =>
        obtain ⟨t, hg, htt, hne⟩ := checkF_true hc
        simp only [advanceF, hg, if_neg hne, Nat.add_sub_cancel,
          if_neg (Nat.succ_ne_zero cur)] at h
        exact Option.noConfusion h
      | false => exact ih h

/-- Progress/fuel outcome predicate: the cursor never moves backwards and
the given fuel is not exhausted. -/
def after (r : PRes) (cur : Nat) : Prop :=
  match r with
  | .ok _ c => cur ≤ c
  | .fail _ c => cur ≤ c
  | .panicked => True
  | .fuelOut => False

/-- The parser's fuel accounting: with fuel at least
`lvl + 2 + 13 * (length + 1 - cur)` a `parseLevel` call never runs out of
fuel and only moves the cursor forward (and correspondingly for the binary
loop and `primary`). -/
theorem parse_noFuelOut (ts : List Token) : ∀ f : Nat,
    (∀ lvl cur, lvl ≤ 6 → lvl + 2 + 13 * (ts.length + 1 - cur) ≤ f →
      after (parseLevel ts f lvl cur) cur) ∧
    (∀ lvl e cur, lvl ≤ 6 → 1 + 13 * (ts.length + 1 - cur) ≤ f →
      after (binLoop ts f lvl e cur) cur) ∧
    (∀ cur, 1 + 13 * (ts.length + 1 - cur) ≤ f →
      after (primaryF ts f cur) cur) := by
  intro f
  induction f with
  | zero =>
    refine ⟨fun lvl cur _ h2 => absurd h2 (by omega),
            fun lvl e cur _ h2 => absurd h2 (by omega),
            fun cur h2 => absurd h2 (by omega)⟩
  | succ f ih =>
    obtain ⟨ihP, ihB, ihPr⟩ := ih
    refine ⟨?_, ?_, ?_⟩
    · -- parseLevel
      intro lvl cur hlvl hfuel
      rcases lvl with _ | _ | lvl
      · exact ihPr cur (by omega)
      · simp only [parseLevel]
        cases hm : matchesF ts cur [.Bang, .Minus] with
        | none => trivial
        | some bc =>
          obtain ⟨b, c⟩ := bc
          cases b with
          | true =>
            obtain ⟨t, hg, hmem, hne, rfl⟩ := matchesF_true hm
            have hcl : cur < ts.length := (List.get?_eq_some.mp hg).1
            dsimp only []
            rw [Nat.add_sub_cancel, hg]
            dsimp only []
            have hrec := ihP 1 (cur + 1) (by omega) (by omega)
            cases hr : parseLevel ts f 1 (cur + 1) with
            | ok right cur2 =>
              rw [hr] at hrec; dsimp only []
              simp only [after] at hrec ⊢; omega
            | fail m c2 =>
              rw [hr] at hrec; dsimp only []
              simp only [after] at hrec ⊢; omega
            | panicked => trivial
            | fuelOut => rw [hr] at hrec; exact absurd hrec (by simp [after])
          | false => exact ihP 0 cur (by omega) (by omega)
      · simp only [parseLevel]
        have hrec := ihP (lvl + 1) cur (by omega) (by omega)
        cases hr : parseLevel ts f (lvl + 1) cur with
        | ok e cur' =>
          rw [hr] at hrec; simp only [after] at hrec
          dsimp only []
          have hb2 := ihB (lvl + 2) e cur' (by omega) (by omega)
          cases hbl : binLoop ts f (lvl + 2) e cur' with
          | ok e2 c2 =>
            rw [hbl] at hb2; simp only [after] at hb2 ⊢; omega
          | fail m c2 =>
            rw [hbl] at hb2; simp only [after] at hb2 ⊢; omega
          | panicked => trivial
          | fuelOut => rw [hbl] at hb2; exact absurd hb2 (by simp [after])
        | fail m c' =>
          rw [hr] at hrec; dsimp only []
          simp only [after] at hrec ⊢; omega
        | panicked => trivial
        | fuelOut => rw [hr] at hrec; exact absurd hrec (by simp [after])
    · -- binLoop
      intro lvl e cur hlvl hfuel
      simp only [binLoop]
      cases hm : matchesF ts cur (opsFor lvl) with
      | none => trivial
      | some bc =>
        obtain ⟨b, c⟩ := bc
        cases b with
        | true =>
          obtain ⟨t, hg, hmem, hne, rfl⟩ := matchesF_true hm
          have hcl : cur < ts.length := (List.get?_eq_some.mp hg).1
          dsimp only []
          rw [Nat.add_sub_cancel, hg]
          dsimp only []
          have hrec := ihP (lvl - 1) (cur + 1) (by omega) (by omega)
          cases hr : parseLevel ts f (lvl - 1) (cur + 1) with
          | ok right cur2 =>
            rw [hr] at hrec; simp only [after] at hrec
            dsimp only []
            have hb2 := ihB lvl (.Binary e t right) cur2 (by omega) (by omega)
            cases hbl : binLoop ts f lvl (.Binary e t right) cur2 with
            | ok e2 c2 =>
              rw [hbl] at hb2; simp only [after] at hb2 ⊢; omega
            | fail m c2 =>
              rw [hbl] at hb2; simp only [after] at hb2 ⊢; omega
            | panicked => trivial
            | fuelOut => rw [hbl] at hb2; exact absurd hb2 (by simp [after])
          | fail m c2 =>
            rw [hr] at hrec; dsimp only []
            simp only [after] at hrec ⊢; omega
          | panicked => trivial
          | fuelOut => rw [hr] at hrec; exact absurd hrec (by simp [after])
        | false =>
          have := matchesF_false hm
          subst this
          exact Nat.le_refl _
    · -- primaryF
      intro cur hfuel
      simp only [primaryF]
      cases hm1 : matchesF ts cur [.False] with
      | none => trivial
      | some bc =>
        obtain ⟨b, c⟩ := bc
        cases b with
        | true =>
          obtain ⟨t, hg, hmem, hne, rfl⟩ := matchesF_true hm1
          exact Nat.le_succ cur
        | false =>
        dsimp only []
        cases hm2 : matchesF ts cur [.True] with
        | none => trivial
        | some bc2 =>
          obtain ⟨b2, c2⟩ := bc2
          cases b2 with
          | true =>
            obtain ⟨t, hg, hmem, hne, rfl⟩ := matchesF_true hm2
            exact Nat.le_succ cur
          | false =>
          dsimp only []
          cases hm3 : matchesF ts cur [.Nil] with
          | none => trivial
          | some bc3 =>
            obtain ⟨b3, c3⟩ := bc3
            cases b3 with
            | true =>
              obtain ⟨t, hg, hmem, hne, rfl⟩ := matchesF_true hm3
              exact Nat.le_succ cur
            | false =>
            dsimp only []
            cases hm4 : matchesF ts cur [.Number] with
            | none => trivial
            | some bc4 =>
              obtain ⟨b4, c4⟩ := bc4
              cases b4 with
              | true =>
                obtain ⟨t, hg, hmem, hne, rfl⟩ := matchesF_true hm4
                dsimp only []
                rw [Nat.add_sub_cancel, hg]
                dsimp only []
                cases hlit : t.literal with
                | Number v => exact Nat.le_succ cur
                | Str s =>
                  dsimp only []
                  cases hg2 : ts.get? (cur + 1) with
                  | none => trivial
                  | some u => exact Nat.le_succ cur
                | Null =>
                  dsimp only []
                  cases hg2 : ts.get? (cur + 1) with
                  | none => trivial
                  | some u => exact Nat.le_succ cur
              | false =>
              dsimp only []
              cases hm5 : matchesF ts cur [.String] with
              | none => trivial
              | some bc5 =>
                obtain ⟨b5, c5⟩ := bc5
                cases b5 with
                | true =>
                  obtain ⟨t, hg, hmem, hne, rfl⟩ := matchesF_true hm5
                  dsimp only []
                  rw [Nat.add_sub_cancel, hg]
                  dsimp only []
                  cases hlit : t.literal with
                  | Str s => exact Nat.le_succ cur
                  | Number v =>
                    dsimp only []
                    cases hg2 : ts.get? (cur + 1) with
                    | none => trivial
                    | some u => exact Nat.le_succ cur
                  | Null =>
                    dsimp only []
                    cases hg2 : ts.get? (cur + 1) with
                    | none => trivial
                    | some u => exact Nat.le_succ cur
                | false =>
                dsimp only []
                cases hm6 : matchesF ts cur [.LeftParen] with
                | none => trivial
                | some bc6 =>
                  obtain ⟨b6, c6⟩ := bc6
                  cases b6 with
                  | true =>
                    obtain ⟨t, hg, hmem, hne, rfl⟩ := matchesF_true hm6
                    have hcl : cur < ts.length := (List.get?_eq_some.mp hg).1
                    dsimp only []
                    have hrec := ihP 6 (cur + 1) (by omega) (by omega)
                    cases hr : parseLevel ts f 6 (cur + 1) with
                    | ok e cur2 =>
                      rw [hr] at hrec; simp only [after] at hrec
                      dsimp only []
                      cases hc2 : checkF ts cur2 .RightParen with
                      | none => trivial
                      | some b7 =>
                        cases b7 with
                        | true =>
                          dsimp only []
                          obtain ⟨u, hgu, hut, hune⟩ := checkF_true hc2
                          simp only [advanceF, hgu, if_neg hune,
                            Nat.add_sub_cancel, if_neg (Nat.succ_ne_zero cur2)]
                          simp only [after]; omega
                        | false =>
                          dsimp only []
                          simp only [after]; omega
                    | fail m c7 =>
                      rw [hr] at hrec; dsimp only []
                      simp only [after] at hrec ⊢; omega
                    | panicked => trivial
                    | fuelOut => rw [hr] at hrec; exact absurd hrec (by simp [after])
                  | false => exact Nat.le_refl cur

/-- Panic-freedom predicate: the run did not hit an index panic, and the
EOF invariant still holds at the resulting cursor. -/
def afterP (ts : List Token) (r : PRes) : Prop :=
  match r with
  | .ok _ c => PInv ts c
  | .fail _ c => PInv ts c
  | .panicked => False
  | .fuelOut => True

/-- On a token list whose remainder contains an EOF token, no parser
method panics, and the EOF invariant is maintained. -/
theorem parse_noPanic (ts : List Token) : ∀ f : Nat,
    (∀ lvl cur, PInv ts cur → afterP ts (parseLevel ts f lvl cur)) ∧
    (∀ lvl e cur, PInv ts cur → afterP ts (binLoop ts f lvl e cur)) ∧
    (∀ cur, PInv ts cur → afterP ts (primaryF ts f cur)) := by
  intro f
  induction f with
  | zero =>
    exact ⟨fun lvl cur _ => trivial, fun lvl e cur _ => trivial,
           fun cur _ => trivial⟩
  | succ f ih =>
    obtain ⟨ihP, ihB, ihPr⟩ := ih
    refine ⟨?_, ?_, ?_⟩
    · -- parseLevel
      intro lvl cur hP
      rcases lvl with _ | _ | lvl
      · exact ihPr cur hP
      · simp only [parseLevel]
        cases hm : matchesF ts cur [.Bang, .Minus] with
        | none =>
          obtain ⟨t, hgt⟩ := hP.get_some
          rw [matchesF_none hm] at hgt
          exact Option.noConfusion hgt
        | some bc =>
          obtain ⟨b, c⟩ := bc
          cases b with
          | true =>
            obtain ⟨t, hg, hmem, hne, rfl⟩ := matchesF_true hm
            have hP1 := hP.advance hg hne
            dsimp only []
            rw [Nat.add_sub_cancel, hg]
            dsimp only []
            have hrec := ihP 1 (cur + 1) hP1
            cases hr : parseLevel ts f 1 (cur + 1) with
            | ok right cur2 =>
              rw [hr] at hrec; simp only [afterP] at hrec
              dsimp only []; simp only [afterP]; exact hrec
            | fail m c2 =>
              rw [hr] at hrec; simp only [afterP] at hrec
              dsimp only []; simp only [afterP]; exact hrec
            | panicked =>
              rw [hr] at hrec; simp only [afterP] at hrec
            | fuelOut => trivial
          | false => exact ihP 0 cur hP
      · simp only [parseLevel]
        have hrec := ihP (lvl + 1) cur hP
        cases hr : parseLevel ts f (lvl + 1) cur with
        | ok e cur' =>
          rw [hr] at hrec; simp only [afterP] at hrec
          dsimp only []
          have hb2 := ihB (lvl + 2) e cur' hrec
          cases hbl : binLoop ts f (lvl + 2) e cur' with
          | ok e2 c2 =>
            rw [hbl] at hb2; simp only [afterP] at hb2; simp only [afterP]
            exact hb2
          | fail m c2 =>
            rw [hbl] at hb2; simp only [afterP] at hb2; simp only [afterP]
            exact hb2
          | panicked =>
            rw [hbl] at hb2; simp only [afterP] at hb2
          | fuelOut => trivial
        | fail m c' =>
          rw [hr] at hrec; simp only [afterP] at hrec
          dsimp only []; simp only [afterP]; exact hrec
        | panicked =>
          rw [hr] at hrec; simp only [afterP] at hrec
        | fuelOut => trivial
    · -- binLoop
      intro lvl e cur hP
      simp only [binLoop]
      cases hm : matchesF ts cur (opsFor lvl) with
      | none =>
        obtain ⟨t, hgt⟩ := hP.get_some
        rw [matchesF_none hm] at hgt
        exact Option.noConfusion hgt
      | some bc =>
        obtain ⟨b, c⟩ := bc
        cases b with
        | true =>
          obtain ⟨t, hg, hmem, hne, rfl⟩ := matchesF_true hm
          have hP1 := hP.advance hg hne
          dsimp only []
          rw [Nat.add_sub_cancel, hg]
          dsimp only []
          have hrec := ihP (lvl - 1) (cur + 1) hP1
          cases hr : parseLevel ts f (lvl - 1) (cur + 1) with
          | ok right cur2 =>
            rw [hr] at hrec; simp only [afterP] at hrec
            dsimp only []
            have hb2 := ihB lvl (.Binary e t right) cur2 hrec
            cases hbl : binLoop ts f lvl (.Binary e t right) cur2 with
            | ok e2 c2 =>
              rw [hbl] at hb2; simp only [afterP] at hb2; simp only [afterP]
              exact hb2
            | fail m c2 =>
              rw [hbl] at hb2; simp only [afterP] at hb2; simp only [afterP]
              exact hb2
            | panicked =>
              rw [hbl] at hb2; simp only [afterP] at hb2
            | fuelOut => trivial
          | fail m c2 =>
            rw [hr] at hrec; simp only [afterP] at hrec
            dsimp only []; simp only [afterP]; exact hrec
          | panicked =>
            rw [hr] at hrec; simp only [afterP] at hrec
          | fuelOut => trivial
        | false =>
          have := matchesF_false hm
          subst this
          exact hP
    · -- primaryF
      intro cur hP
      simp only [primaryF]
      cases hm1 : matchesF ts cur [.False] with
      | none =>
        obtain ⟨t, hgt⟩ := hP.get_some
        rw [matchesF_none hm1] at hgt
        exact Option.noConfusion hgt
      | some bc =>
        obtain ⟨b, c⟩ := bc
        cases b with
        | true =>
          obtain ⟨t, hg, hmem, hne, rfl⟩ := matchesF_true hm1
          exact hP.advance hg hne
        | false =>
        dsimp only []
        cases hm2 : matchesF ts cur [.True] with
        | none =>
          obtain ⟨t, hgt⟩ := hP.get_some
          rw [matchesF_none hm2] at hgt
          exact Option.noConfusion hgt
        | some bc2 =>
          obtain ⟨b2, c2⟩ := bc2
          cases b2 with
          | true =>
            obtain ⟨t, hg, hmem, hne, rfl⟩ := matchesF_true hm2
            exact hP.advance hg hne
          | false =>
          dsimp only []
          cases hm3 : matchesF ts cur [.Nil] with
          | none =>
            obtain ⟨t, hgt⟩ := hP.get_some
            rw [matchesF_none hm3] at hgt
            exact Option.noConfusion hgt
          | some bc3 =>
            obtain ⟨b3, c3⟩ := bc3
            cases b3 with
            | true =>
              obtain ⟨t, hg, hmem, hne, rfl⟩ := matchesF_true hm3
              exact hP.advance hg hne
            | false =>
            dsimp only []
            cases hm4 : matchesF ts cur [.Number] with
            | none =>
              obtain ⟨t, hgt⟩ := hP.get_some
              rw [matchesF_none hm4] at hgt
              exact Option.noConfusion hgt
            | some bc4 =>
              obtain ⟨b4, c4⟩ := bc4
              cases b4 with
              | true =>
                obtain ⟨t, hg, hmem, hne, rfl⟩ := matchesF_true hm4
                have hP1 := hP.advance hg hne
                dsimp only []
                rw [Nat.add_sub_cancel, hg]
                dsimp only []
                cases hlit : t.literal with
                | Number v => exact hP1
                | Str s =>
                  dsimp only []
                  cases hg2 : ts.get? (cur + 1) with
                  | none =>
                    obtain ⟨u, hu⟩ := hP1.get_some
                    rw [hg2] at hu
                    exact Option.noConfusion hu
                  | some u => exact hP1
                | Null =>
                  dsimp only []
                  cases hg2 : ts.get? (cur + 1) with
                  | none =>
                    obtain ⟨u, hu⟩ := hP1.get_some
                    rw [hg2] at hu
                    exact Option.noConfusion hu
                  | some u => exact hP1
              | false =>
              dsimp only []
              cases hm5 : matchesF ts cur [.String] with
              | none =>
                obtain ⟨t, hgt⟩ := hP.get_some
                rw [matchesF_none hm5] at hgt
                exact Option.noConfusion hgt
              | some bc5 =>
                obtain ⟨b5, c5⟩ := bc5
                cases b5 with
                | true =>
                  obtain ⟨t, hg, hmem, hne, rfl⟩ := matchesF_true hm5
                  have hP1 := hP.advance hg hne
                  dsimp only []
                  rw [Nat.add_sub_cancel, hg]
                  dsimp only []
                  cases hlit : t.literal with
                  | Str s => exact hP1
                  | Number v =>
                    dsimp only []
                    cases hg2 : ts.get? (cur + 1) with
                    | none =>
                      obtain ⟨u, hu⟩ := hP1.get_some
                      rw [hg2] at hu
                      exact Option.noConfusion hu
                    | some u => exact hP1
                  | Null =>
                    dsimp only []
                    cases hg2 : ts.get? (cur + 1) with
                    | none =>
                      obtain ⟨u, hu⟩ := hP1.get_some
                      rw [hg2] at hu
                      exact Option.noConfusion hu
                    | some u => exact hP1
                | false =>
                dsimp only []
                cases hm6 : matchesF ts cur [.LeftParen] with
                | none =>
                  obtain ⟨t, hgt⟩ := hP.get_some
                  rw [matchesF_none hm6] at hgt
                  exact Option.noConfusion hgt
                | some bc6 =>
                  obtain ⟨b6, c6⟩ := bc6
                  cases b6 with
                  | true =>
                    obtain ⟨t, hg, hmem, hne, rfl⟩ := matchesF_true hm6
                    have hP1 := hP.advance hg hne
                    dsimp only []
                    have hrec := ihP 6 (cur + 1) hP1
                    cases hr : parseLevel ts f 6 (cur + 1) with
                    | ok e cur2 =>
                      rw [hr] at hrec; simp only [afterP] at hrec
                      dsimp only []
                      cases hc2 : checkF ts cur2 .RightParen with
                      | none =>
                        obtain ⟨u, hu⟩ := hrec.get_some
                        rw [checkF_none hc2] at hu
                        exact Option.noConfusion hu
                      | some b7 =>
                        cases b7 with
                        | true =>
                          dsimp only []
                          obtain ⟨u, hgu, hut, hune⟩ := checkF_true hc2
                          simp only [advanceF, hgu, if_neg hune,
                            Nat.add_sub_cancel, if_neg (Nat.succ_ne_zero cur2)]
                          simp only [afterP]
                          exact hrec.advance hgu hune
                        | false =>
                          dsimp only []
                          simp only [afterP]
                          exact hrec
                    | fail m c7 =>
                      rw [hr] at hrec; simp only [afterP] at hrec
                      dsimp only []; simp only [afterP]; exact hrec
                    | panicked =>
                      rw [hr] at hrec; simp only [afterP] at hrec
                    | fuelOut => trivial
                  | false => exact hP

/-- C3 (amended): for every token sequence that contains an EOF token — as
every scanner-produced sequence does — `Parser::parse` completes without a
panic, and whenever the grammar rules fail (the `expression()` call
returns a `ParseError`) it yields the `Nil` literal placeholder. -/
theorem claim_C3_parse_failure_yields_nil :
    ∀ ts : List Token, hasEOF ts →
      (∃ e, parseTokens ts = some e) ∧
      (∀ m c, parseLevel ts (parseFuel ts) 6 0 = .fail m c →
        parseTokens ts = some (.Literal .Nil)) := by
  intro ts h
  obtain ⟨i, t, hget, heof⟩ := h
  have hP : PInv ts 0 := ⟨i, t, Nat.zero_le i, hget, heof⟩
  have hA := (parse_noFuelOut ts (parseFuel ts)).1 6 0 (by omega)
    (by unfold parseFuel; omega)
  have hB := (parse_noPanic ts (parseFuel ts)).1 6 0 hP
  cases hr : parseLevel ts (parseFuel ts) 6 0 with
  | ok e c =>
    refine ⟨⟨e, ?_⟩, ?_⟩
    · unfold parseTokens; rw [hr]
    · intro m c' hc'; exact PRes.noConfusion hc'
  | fail m c =>
    exact ⟨⟨.Literal .Nil, by unfold parseTokens; rw [hr]⟩,
           fun m' c' _ => by unfold parseTokens; rw [hr]⟩
  | panicked => rw [hr] at hB; simp only [afterP] at hB
  | fuelOut => rw [hr] at hA; simp only [after] at hA

/-- C3 counterexample: the claim quantifies over every token sequence, but
on the empty sequence (no EOF token) `Parser::parse` panics (`peek`
indexes out of bounds) instead of returning the `Nil` placeholder. -/
theorem claim_C3_counterexample : parseTokens ([] : List Token) = none := by
  decide

/-- The token sequence of the spec example `"(1 + 2"`: an unterminated
group followed by end of input. -/
def parenTokens : List Token :=
  [Token.mk .LeftParen ['('] .Null 1, Token.mk .Number ['1'] (.Number 1) 1,
   Token.mk .Plus ['+'] .Null 1, Token.mk .Number ['2'] (.Number 2) 1,
   Token.mk .EOF [] .Null 1]

/-- Witness for C3: the unterminated-group token sequence fails with the
expected diagnostic and parses to the `Nil` placeholder, no panic. -/
theorem claim_C3_parse_failure_yields_nil_witness :
    parseTokens parenTokens = some (.Literal .Nil) :=
  (claim_C3_parse_failure_yields_nil parenTokens
    ⟨4, Token.mk .EOF [] .Null 1, by decide, rfl⟩).2
    "Expect \x27)\x27 after expression." 4 (by decide)

/-- Every operator set of a binary grammar level lies inside the ten
binary operator kinds the evaluator dispatches on. -/
theorem opsFor_wf : ∀ (lvl : Nat) (tt : TokenType), tt ∈ opsFor lvl →
    binaryOps.contains tt = true := by
  intro lvl tt h
  rcases lvl with _ | _ | _ | _ | _ | _ | k
  · cases h
  · cases h
  · fin_cases h <;> decide
  · fin_cases h <;> decide
  · fin_cases h <;> decide
  · fin_cases h <;> decide
  · cases h

/-- Every expression any parser method returns is well-formed: binary
operators come from the ten binary kinds, unary operators are `Bang` or
`Minus`. -/
theorem parse_wf (ts : List Token) : ∀ f : Nat,
    (∀ lvl cur e c, parseLevel ts f lvl cur = .ok e c → wellFormedB e = true) ∧
    (∀ lvl e0 cur e c, wellFormedB e0 = true →
      binLoop ts f lvl e0 cur = .ok e c → wellFormedB e = true) ∧
    (∀ cur e c, primaryF ts f cur = .ok e c → wellFormedB e = true) := by
  intro f
  induction f with
  | zero =>
    exact ⟨fun lvl cur e c h => PRes.noConfusion h,
           fun lvl e0 cur e c _ h => PRes.noConfusion h,
           fun cur e c h => PRes.noConfusion h⟩
  | succ f ih =>
    obtain ⟨ihP, ihB, ihPr⟩ := ih
    refine ⟨?_, ?_, ?_⟩
    · -- parseLevel
      intro lvl cur e c h
      rcases lvl with _ | _ | lvl
      · exact ihPr cur e c h
      · simp only [parseLevel] at h
        cases hm : matchesF ts cur [.Bang, .Minus] with
        | none => rw [hm] at h; exact PRes.noConfusion h
        | some bc =>
          obtain ⟨b, c'⟩ := bc
          cases b with
          | true =>
            obtain ⟨t, hg, hmem, hne, rfl⟩ := matchesF_true hm
            rw [hm] at h
            dsimp only [] at h
            rw [Nat.add_sub_cancel, hg] at h
            dsimp only [] at h
            cases hr : parseLevel ts f 1 (cur + 1) with
            | ok right cur2 =>
              rw [hr] at h
              dsimp only [] at h
              injection h with h1 h2
              subst h1
              have hwr := ihP 1 (cur + 1) right cur2 hr
              simp only [List.mem_cons, List.mem_singleton] at hmem
              rcases hmem with h1 | h1 | h1
              · simp [wellFormedB, h1, hwr]
              · simp [wellFormedB, h1, hwr]
              · cases h1
            | fail m c2 => rw [hr] at h; dsimp only [] at h; exact PRes.noConfusion h
            | panicked => rw [hr] at h; dsimp only [] at h; exact PRes.noConfusion h
            | fuelOut => rw [hr] at h; dsimp only [] at h; exact PRes.noConfusion h
          | false =>
            rw [hm] at h
            dsimp only [] at h
            exact ihP 0 cur e c h
      · simp only [parseLevel] at h
        cases hr : parseLevel ts f (lvl + 1) cur with
        | ok e1 cur' =>
          rw [hr] at h
          dsimp only [] at h
          exact ihB (lvl + 2) e1 cur' e c (ihP (lvl + 1) cur e1 cur' hr) h
        | fail m c' => rw [hr] at h; exact PRes.noConfusion h
        | panicked => rw [hr] at h; exact PRes.noConfusion h
        | fuelOut => rw [hr] at h; exact PRes.noConfusion h
    · -- binLoop
      intro lvl e0 cur e c hwf0 h
      simp only [binLoop] at h
      cases hm : matchesF ts cur (opsFor lvl) with
      | none => rw [hm] at h; exact PRes.noConfusion h
      | some bc =>
        obtain ⟨b, c'⟩ := bc
        cases b with
        | true =>
          obtain ⟨t, hg, hmem, hne, rfl⟩ := matchesF_true hm
          rw [hm] at h
          dsimp only [] at h
          rw [Nat.add_sub_cancel, hg] at h
          dsimp only [] at h
          cases hr : parseLevel ts f (lvl - 1) (cur + 1) with
          | ok right cur2 =>
            rw [hr] at h
            dsimp only [] at h
            have hmem2 : t.token_type ∈ binaryOps := by
              simpa using opsFor_wf lvl _ hmem
            have hwb : wellFormedB (.Binary e0 t right) = true := by
              simp [wellFormedB, hmem2, hwf0,
                ihP (lvl - 1) (cur + 1) right cur2 hr]
            exact ihB lvl (.Binary e0 t right) cur2 e c hwb h
          | fail m c2 => rw [hr] at h; dsimp only [] at h; exact PRes.noConfusion h
          | panicked => rw [hr] at h; dsimp only [] at h; exact PRes.noConfusion h
          | fuelOut => rw [hr] at h; dsimp only [] at h; exact PRes.noConfusion h
        | false =>
          rw [hm] at h
          dsimp only [] at h
          cases h
          exact hwf0
    · -- primaryF
      intro cur e c h
      simp only [primaryF] at h
      cases hm1 : matchesF ts cur [.False] with
      | none => rw [hm1] at h; exact PRes.noConfusion h
      | some bc =>
        obtain ⟨b, c'⟩ := bc
        cases b with
        | true => rw [hm1] at h; dsimp only [] at h; cases h; rfl
        | false =>
        rw [hm1] at h; dsimp only [] at h
        cases hm2 : matchesF ts cur [.True] with
        | none => rw [hm2] at h; exact PRes.noConfusion h
        | some bc2 =>
          obtain ⟨b2, c2⟩ := bc2
          cases b2 with
          | true => rw [hm2] at h; dsimp only [] at h; cases h; rfl
          | false =>
          rw [hm2] at h; dsimp only [] at h
          cases hm3 : matchesF ts cur [.Nil] with
          | none => rw [hm3] at h; exact PRes.noConfusion h
          | some bc3 =>
            obtain ⟨b3, c3⟩ := bc3
            cases b3 with
            | true => rw [hm3] at h; dsimp only [] at h; cases h; rfl
            | false =>
            rw [hm3] at h; dsimp only [] at h
            cases hm4 : matchesF ts cur [.Number] with
            | none => rw [hm4] at h; exact PRes.noConfusion h
            | some bc4 =>
              obtain ⟨b4, c4⟩ := bc4
              cases b4 with
              | true =>
                obtain ⟨t, hg, hmem, hne, rfl⟩ := matchesF_true hm4
                rw [hm4] at h
                dsimp only [] at h
                rw [Nat.add_sub_cancel, hg] at h
                dsimp only [] at h
                cases hlit : t.literal with
                | Number v => rw [hlit] at h; dsimp only [] at h; cases h; rfl
                | Str s =>
                  rw [hlit] at h; dsimp only [] at h
                  cases hg2 : ts.get? (cur + 1) with
                  | none => rw [hg2] at h; exact PRes.noConfusion h
                  | some u => rw [hg2] at h; dsimp only [] at h; exact PRes.noConfusion h
                | Null =>
                  rw [hlit] at h; dsimp only [] at h
                  cases hg2 : ts.get? (cur + 1) with
                  | none => rw [hg2] at h; exact PRes.noConfusion h
                  | some u => rw [hg2] at h; dsimp only [] at h; exact PRes.noConfusion h
              | false =>
              rw [hm4] at h; dsimp only [] at h
              cases hm5 : matchesF ts cur [.String] with
              | none => rw [hm5] at h; exact PRes.noConfusion h
              | some bc5 =>
                obtain ⟨b5, c5⟩ := bc5
                cases b5 with
                | true =>
                  obtain ⟨t, hg, hmem, hne, rfl⟩ := matchesF_true hm5
                  rw [hm5] at h
                  dsimp only [] at h
                  rw [Nat.add_sub_cancel, hg] at h
                  dsimp only [] at h
                  cases hlit : t.literal with
                  | Str s => rw [hlit] at h; dsimp only [] at h; cases h; rfl
                  | Number v =>
                    rw [hlit] at h; dsimp only [] at h
                    cases hg2 : ts.get? (cur + 1) with
                    | none => rw [hg2] at h; exact PRes.noConfusion h
                    | some u => rw [hg2] at h; dsimp only [] at h; exact PRes.noConfusion h
                  | Null =>
                    rw [hlit] at h; dsimp only [] at h
                    cases hg2 : ts.get? (cur + 1) with
                    | none => rw [hg2] at h; exact PRes.noConfusion h
                    | some u => rw [hg2] at h; dsimp only [] at h; exact PRes.noConfusion h
                | false =>
                rw [hm5] at h; dsimp only [] at h
                cases hm6 : matchesF ts cur [.LeftParen] with
                | none => rw [hm6] at h; exact PRes.noConfusion h
                | some bc6 =>
                  obtain ⟨b6, c6⟩ := bc6
                  cases b6 with
                  | true =>
                    obtain ⟨t, hg, hmem, hne, rfl⟩ := matchesF_true hm6
                    rw [hm6] at h
                    dsimp only [] at h
                    cases hr : parseLevel ts f 6 (cur + 1) with
                    | ok e1 cur2 =>
                      rw [hr] at h
                      dsimp only [] at h
                      cases hc2 : checkF ts cur2 .RightParen with
                      | none => rw [hc2] at h; exact PRes.noConfusion h
                      | some b7 =>
                        cases b7 with
                        | true =>
                          rw [hc2] at h
                          dsimp only [] at h
                          obtain ⟨u, hgu, hut, hune⟩ := checkF_true hc2
                          simp only [advanceF, hgu, if_neg hune,
                            Nat.add_sub_cancel,
                            if_neg (Nat.succ_ne_zero cur2)] at h
                          cases h
                          simpa [wellFormedB] using ihP 6 (cur + 1) e1 cur2 hr
                        | false => rw [hc2] at h; dsimp only [] at h; exact PRes.noConfusion h
                    | fail m c7 => rw [hr] at h; dsimp only [] at h; exact PRes.noConfusion h
                    | panicked => rw [hr] at h; dsimp only [] at h; exact PRes.noConfusion h
                    | fuelOut => rw [hr] at h; dsimp only [] at h; exact PRes.noConfusion h
                  | false =>
                    rw [hm6] at h
                    dsimp only [] at h
                    exact PRes.noConfusion h

/-- A well-formed expression never reaches the `unreachable!()` branches:
evaluation always produces a result. -/
theorem eval_wf : ∀ e : Expression, wellFormedB e = true →
    ∃ r, evalExpr e = some r := by
  intro e
  induction e with
  | Literal v => exact fun _ => ⟨.Ok (litToValue v), rfl⟩
  | Grouping e ih =>
    intro h
    simp only [wellFormedB] at h
    obtain ⟨r, hr⟩ := ih h
    exact ⟨r, hr⟩
  | Unary op r ih =>
    intro h
    simp only [wellFormedB, Bool.and_eq_true, Bool.or_eq_true, beq_iff_eq] at h
    obtain ⟨hop, hwr⟩ := h
    obtain ⟨rr, hrr⟩ := ih hwr
    cases rr with
    | Err e2 => exact ⟨.Err e2, by simp [evalExpr, hrr]⟩
    | Ok rv =>
      rcases hop with hop | hop
      · exact ⟨rv.ops_not, by simp [evalExpr, hrr, hop]⟩
      · exact ⟨rv.negative, by simp [evalExpr, hrr, hop]⟩
  | Binary l op r ihl ihr =>
    intro h
    simp only [wellFormedB, Bool.and_eq_true] at h
    obtain ⟨⟨hop, hwl⟩, hwr⟩ := h
    obtain ⟨rl, hrl⟩ := ihl hwl
    cases rl with
    | Err e2 => exact ⟨.Err e2, by simp [evalExpr, hrl]⟩
    | Ok lv =>
      obtain ⟨rr2, hrr⟩ := ihr hwr
      cases rr2 with
      | Err e2 => exact ⟨.Err e2, by simp [evalExpr, hrl, hrr]⟩
      | Ok rv =>
        have hmem : op.token_type = .Minus ∨ op.token_type = .Plus ∨
            op.token_type = .Slash ∨ op.token_type = .Star ∨
            op.token_type = .Greater ∨ op.token_type = .GreaterEqual ∨
            op.token_type = .Less ∨ op.token_type = .LessEqual ∨
            op.token_type = .BangEqual ∨ op.token_type = .EqualEqual := by
          simpa [binaryOps] using hop
        rcases hmem with h | h | h | h | h | h | h | h | h | h
        · exact ⟨lv.sub rv, by simp [evalExpr, hrl, hrr, h]⟩
        · exact ⟨lv.add rv, by simp [evalExpr, hrl, hrr, h]⟩
        · exact ⟨lv.div rv, by simp [evalExpr, hrl, hrr, h]⟩
        · exact ⟨lv.mul rv, by simp [evalExpr, hrl, hrr, h]⟩
        · exact ⟨lv.gt rv, by simp [evalExpr, hrl, hrr, h]⟩
        · exact ⟨lv.gte rv, by simp [evalExpr, hrl, hrr, h]⟩
        · exact ⟨lv.lt rv, by simp [evalExpr, hrl, hrr, h]⟩
        · exact ⟨lv.lte rv, by simp [evalExpr, hrl, hrr, h]⟩
        · exact ⟨lv.neq rv, by simp [evalExpr, hrl, hrr, h]⟩
        · exact ⟨lv.eq rv, by simp [evalExpr, hrl, hrr, h]⟩

/-- C10: every expression `Parser::parse` returns is well-formed — each
`Binary` operator is one of the ten binary kinds and each `Unary` operator
is `Bang` or `Minus` — so the `unreachable!()` fallbacks in `visit_binary`
and `visit_unary` cannot be hit and evaluation always yields a result. -/
theorem claim_C10_parser_output_wellformed :
    ∀ ts e, parseTokens ts = some e →
      wellFormedB e = true ∧ ∃ r, evalExpr e = some r := by
  intro ts e h
  unfold parseTokens at h
  cases hr : parseLevel ts (parseFuel ts) 6 0 with
  | ok e1 c =>
    rw [hr] at h
    cases h
    have hw := (parse_wf ts (parseFuel ts)).1 6 0 _ c hr
    exact ⟨hw, eval_wf _ hw⟩
  | fail m c =>
    rw [hr] at h
    cases h
    exact ⟨rfl, ⟨.Ok .Nil, rfl⟩⟩
  | panicked => rw [hr] at h; exact Option.noConfusion h
  | fuelOut => rw [hr] at h; exact Option.noConfusion h

/-- Witness for C10: a concrete number-literal token sequence parses to a
well-formed expression that evaluates. -/
theorem claim_C10_parser_output_wellformed_witness :
    wellFormedB (.Literal (.Number 1)) = true ∧
    ∃ r, evalExpr (.Literal (.Number 1)) = some r :=
  claim_C10_parser_output_wellformed
    [Token.mk .Number ['1'] (.Number 1) 1, Token.mk .EOF [] .Null 1]
    (.Literal (.Number 1)) (by with_unfolding_all decide)

/-- A keyword lookup never yields the literal token kinds. -/
theorem keywordType_not_literal {cs : List Char} {tt : TokenType}
    (h : keywordType cs = some tt) : tt ≠ .Number ∧ tt ≠ .String := by
  unfold keywordType at h
  cases hf : KEYWORDS.find? (fun p => p.1 == cs) with
  | none => rw [hf] at h; exact Option.noConfusion h
  | some p =>
    rw [hf] at h
    cases h
    have hmem := List.mem_of_find?_eq_some hf
    fin_cases hmem <;> exact ⟨by decide, by decide⟩

/-- A token with a `Null` payload satisfies the payload invariant as soon
as its kind is not `Number` or `String`. -/
theorem payloadInvB_null {tt : TokenType} (h1 : tt ≠ .Number)
    (h2 : tt ≠ .String) (lx : List Char) (l : Nat) :
    payloadInvB (Token.mk tt lx .Null l) = true := by
  cases tt <;> first | rfl | exact absurd rfl h1 | exact absurd rfl h2

/-- Every token `scanDispatch` emits satisfies the payload invariant. -/
theorem scanDispatch_payload {src : List Char} {start : Nat} {c : Char}
    {line : Nat} {cur' line' : Nat} {ts' : List Token}
    {errs' : List (Nat × String)}
    (h : scanDispatch src start c line = some (cur', line', ts', errs')) :
    ∀ t ∈ ts', payloadInvB t = true := by
  unfold scanDispatch at h
  dsimp only [] at h
  by_cases h1 : c = '('
  · rw [if_pos h1] at h; cases h; intro t ht
    rcases List.mem_singleton.mp ht with rfl; rfl
  rw [if_neg h1] at h
  by_cases h2 : c = ')'
  · rw [if_pos h2] at h; cases h; intro t ht
    rcases List.mem_singleton.mp ht with rfl; rfl
  rw [if_neg h2] at h
  by_cases h3 : c = Char.ofNat 123
  · rw [if_pos h3] at h; cases h; intro t ht
    rcases List.mem_singleton.mp ht with rfl; rfl
  rw [if_neg h3] at h
  by_cases h4 : c = Char.ofNat 125
  · rw [if_pos h4] at h; cases h; intro t ht
    rcases List.mem_singleton.mp ht with rfl; rfl
  rw [if_neg h4] at h
  by_cases h5 : c = ','
  · rw [if_pos h5] at h; cases h; intro t ht
    rcases List.mem_singleton.mp ht with rfl; rfl
  rw [if_neg h5] at h
  by_cases h6 : c = '.'
  · rw [if_pos h6] at h; cases h; intro t ht
    rcases List.mem_singleton.mp ht with rfl; rfl
  rw [if_neg h6] at h
  by_cases h7 : c = '-'
  · rw [if_pos h7] at h; cases h; intro t ht
    rcases List.mem_singleton.mp ht with rfl; rfl
  rw [if_neg h7] at h
  by_cases h8 : c = '+'
  · rw [if_pos h8] at h; cases h; intro t ht
    rcases List.mem_singleton.mp ht with rfl; rfl
  rw [if_neg h8] at h
  by_cases h9 : c = ';'
  · rw [if_pos h9] at h; cases h; intro t ht
    rcases List.mem_singleton.mp ht with rfl; rfl
  rw [if_neg h9] at h
  by_cases h10 : c = '*'
  · rw [if_pos h10] at h; cases h; intro t ht
    rcases List.mem_singleton.mp ht with rfl; rfl
  rw [if_neg h10] at h
  by_cases h11 : c = '!'
  · rw [if_pos h11] at h
    cases hnm : nextCharMatches src (start + 1) '=' with
    | mk b cur2 =>
      rw [hnm] at h
      cases b <;>
      · dsimp only [] at h
        cases h
        intro t ht
        rcases List.mem_singleton.mp ht with rfl
        rfl
  rw [if_neg h11] at h
  by_cases h12 : c = '='
  · rw [if_pos h12] at h
    cases hnm : nextCharMatches src (start + 1) '=' with
    | mk b cur2 =>
      rw [hnm] at h
      cases b <;>
      · dsimp only [] at h
        cases h
        intro t ht
        rcases List.mem_singleton.mp ht with rfl
        rfl
  rw [if_neg h12] at h
  by_cases h13 : c = '<'
  · rw [if_pos h13] at h
    cases hnm : nextCharMatches src (start + 1) '=' with
    | mk b cur2 =>
      rw [hnm] at h
      cases b <;>
      · dsimp only [] at h
        cases h
        intro t ht
        rcases List.mem_singleton.mp ht with rfl
        rfl
  rw [if_neg h13] at h
  by_cases h14 : c = '>'
  · rw [if_pos h14] at h
    cases hnm : nextCharMatches src (start + 1) '=' with
    | mk b cur2 =>
      rw [hnm] at h
      cases b <;>
      · dsimp only [] at h
        cases h
        intro t ht
        rcases List.mem_singleton.mp ht with rfl
        rfl
  rw [if_neg h14] at h
  by_cases h15 : c = '/'
  · rw [if_pos h15] at h
    cases hnm : nextCharMatches src (start + 1) '/' with
    | mk b cur2 =>
      rw [hnm] at h
      cases b
      · dsimp only [] at h; cases h; intro t ht
        rcases List.mem_singleton.mp ht with rfl; rfl
      · dsimp only [] at h; cases h; intro t ht; cases ht
  rw [if_neg h15] at h
  by_cases h16 : (c == ' ' || c == '\r' || c == '\t') = true
  · rw [if_pos h16] at h; cases h; intro t ht; cases ht
  rw [if_neg h16] at h
  by_cases h17 : c = '\n'
  · rw [if_pos h17] at h; cases h; intro t ht; cases ht
  rw [if_neg h17] at h
  by_cases h18 : c = '\"'
  · rw [if_pos h18] at h
    cases hss : stringScan src (src.length + 1) (start + 1) line with
    | mk e l2 =>
      rw [hss] at h
      dsimp only [] at h
      cases hg : src.get? e with
      | none =>
        rw [hg] at h; dsimp only [] at h; cases h; intro t ht; cases ht
      | some ch =>
        rw [hg] at h; dsimp only [] at h; cases h; intro t ht
        rcases List.mem_singleton.mp ht with rfl
        rfl
  rw [if_neg h18] at h
  by_cases h19 : isDigit c = true
  · rw [if_pos h19] at h
    cases hde : digitsEnd src (src.length + 1) (start + 1) with
    | none => rw [hde] at h; exact Option.noConfusion h
    | some e1 =>
      rw [hde] at h
      dsimp only [] at h
      by_cases hdot : ((src.get? e1 == some '.') &&
          ((src.get? (e1 + 1)).any isDigit)) = true
      · rw [if_pos hdot] at h
        cases hde2 : digitsEnd src (src.length + 1) (e1 + 1) with
        | none => rw [hde2] at h; exact Option.noConfusion h
        | some e2 =>
          rw [hde2] at h
          dsimp only [] at h
          cases hpn : parseNumberOpt (sub src start e2) with
          | none => rw [hpn] at h; exact Option.noConfusion h
          | some v =>
            rw [hpn] at h
            dsimp only [] at h
            cases h
            intro t ht
            rcases List.mem_singleton.mp ht with rfl
            rfl
      · rw [if_neg hdot] at h
        dsimp only [] at h
        cases hpn : parseNumberOpt (sub src start e1) with
        | none => rw [hpn] at h; exact Option.noConfusion h
        | some v =>
          rw [hpn] at h
          dsimp only [] at h
          cases h
          intro t ht
          rcases List.mem_singleton.mp ht with rfl
          rfl
  rw [if_neg h19] at h
  by_cases h20 : isAlpha c = true
  · rw [if_pos h20] at h
    cases hkw : keywordType
        (sub src start (identEnd src (src.length + 1) (start + 1))) with
    | some tt =>
      rw [hkw] at h; dsimp only [] at h; cases h; intro t ht
      rcases List.mem_singleton.mp ht with rfl
      exact payloadInvB_null (keywordType_not_literal hkw).1
        (keywordType_not_literal hkw).2 _ _
    | none =>
      rw [hkw] at h; dsimp only [] at h; cases h; intro t ht
      rcases List.mem_singleton.mp ht with rfl
      rfl
  rw [if_neg h20] at h
  cases h; intro t ht; cases ht

/-- The scanning loop preserves the payload invariant. -/
theorem scanLoop_payload (src : List Char) :
    ∀ f current line tokens errs ts es,
      (∀ t ∈ tokens, payloadInvB t = true) →
      scanLoop src f current line tokens errs = .ok ts es →
      ∀ t ∈ ts, payloadInvB t = true := by
  intro f
  induction f with
  | zero => intro current line tokens errs ts es _ h; simp [scanLoop] at h
  | succ f ih =>
    intro current line tokens errs ts es hacc h
    cases hc : src.get? current with
    | none =>
      simp only [scanLoop, hc] at h
      cases h
      intro t ht
      rcases List.mem_append.mp ht with ht | ht
      · exact hacc t ht
      · rcases List.mem_singleton.mp ht with rfl; rfl
    | some c =>
      cases hd : scanDispatch src current c line with
      | none =>
        simp only [scanLoop, hc, hd] at h
        exact ScanOut.noConfusion h
      | some q =>
        obtain ⟨cur', line', ts2, errs2⟩ := q
        simp only [scanLoop, hc, hd] at h
        refine ih cur' line' (tokens ++ ts2) (errs ++ errs2) ts es ?_ h
        intro t ht
        rcases List.mem_append.mp ht with ht | ht
        · exact hacc t ht
        · exact scanDispatch_payload hd t ht

/-- A payload-invariant `Number` token carries a `Number` literal. -/
theorem payload_number {t : Token} (h : payloadInvB t = true)
    (ht : t.token_type = .Number) : ∃ v, t.literal = .Number v := by
  cases hl : t.literal with
  | Number v => exact ⟨v, rfl⟩
  | Str s => simp [payloadInvB, ht, hl] at h
  | Null => simp [payloadInvB, ht, hl] at h

/-- A payload-invariant `String` token carries a `Str` literal. -/
theorem payload_string {t : Token} (h : payloadInvB t = true)
    (ht : t.token_type = .String) : ∃ s, t.literal = .Str s := by
  cases hl : t.literal with
  | Str s => exact ⟨s, rfl⟩
  | Number v => simp [payloadInvB, ht, hl] at h
  | Null => simp [payloadInvB, ht, hl] at h

/-- The parse errors that can actually be reported. -/
def allowedMsg (m : String) : Prop :=
  m = "Expect \x27)\x27 after expression." ∨ m = "unexpected token"

/-- On a payload-invariant token list, every `ParseError` carries one of
the two user-facing messages: the internal payload-mismatch branches of
`primary` are unreachable. -/
theorem parse_msgs (ts : List Token)
    (hinv : ∀ t ∈ ts, payloadInvB t = true) : ∀ f : Nat,
    (∀ lvl cur m c, parseLevel ts f lvl cur = .fail m c → allowedMsg m) ∧
    (∀ lvl e0 cur m c, binLoop ts f lvl e0 cur = .fail m c → allowedMsg m) ∧
    (∀ cur m c, primaryF ts f cur = .fail m c → allowedMsg m) := by
  intro f
  induction f with
  | zero =>
    exact ⟨fun lvl cur m c h => PRes.noConfusion h,
           fun lvl e0 cur m c h => PRes.noConfusion h,
           fun cur m c h => PRes.noConfusion h⟩
  | succ f ih =>
    obtain ⟨ihP, ihB, ihPr⟩ := ih
    refine ⟨?_, ?_, ?_⟩
    · -- parseLevel
      intro lvl cur m c h
      rcases lvl with _ | _ | lvl
      · exact ihPr cur m c h
      · simp only [parseLevel] at h
        cases hm : matchesF ts cur [.Bang, .Minus] with
        | none => rw [hm] at h; exact PRes.noConfusion h
        | some bc =>
          obtain ⟨b, c'⟩ := bc
          cases b with
          | true =>
            obtain ⟨t, hg, hmem, hne, rfl⟩ := matchesF_true hm
            rw [hm] at h
            dsimp only [] at h
            rw [Nat.add_sub_cancel, hg] at h
            dsimp only [] at h
            cases hr : parseLevel ts f 1 (cur + 1) with
            | ok right cur2 => rw [hr] at h; dsimp only [] at h; exact PRes.noConfusion h
            | fail m2 c2 =>
              rw [hr] at h
              dsimp only [] at h
              injection h with h1 h2
              subst h1
              exact ihP 1 (cur + 1) m2 c2 hr
            | panicked => rw [hr] at h; dsimp only [] at h; exact PRes.noConfusion h
            | fuelOut => rw [hr] at h; dsimp only [] at h; exact PRes.noConfusion h
          | false =>
            rw [hm] at h
            dsimp only [] at h
            exact ihP 0 cur m c h
      · simp only [parseLevel] at h
        cases hr : parseLevel ts f (lvl + 1) cur with
        | ok e1 cur' =>
          rw [hr] at h
          dsimp only [] at h
          exact ihB (lvl + 2) e1 cur' m c h
        | fail m2 c' =>
          rw [hr] at h
          dsimp only [] at h
          injection h with h1 h2
          subst h1
          exact ihP (lvl + 1) cur m2 c' hr
        | panicked => rw [hr] at h; exact PRes.noConfusion h
        | fuelOut => rw [hr] at h; exact PRes.noConfusion h
    · -- binLoop
      intro lvl e0 cur m c h
      simp only [binLoop] at h
      cases hm : matchesF ts cur (opsFor lvl) with
      | none => rw [hm] at h; exact PRes.noConfusion h
      | some bc =>
        obtain ⟨b, c'⟩ := bc
        cases b with
        | true =>
          obtain ⟨t, hg, hmem, hne, rfl⟩ := matchesF_true hm
          rw [hm] at h
          dsimp only [] at h
          rw [Nat.add_sub_cancel, hg] at h
          dsimp only [] at h
          cases hr : parseLevel ts f (lvl - 1) (cur + 1) with
          | ok right cur2 =>
            rw [hr] at h
            dsimp only [] at h
            exact ihB lvl (.Binary e0 t right) cur2 m c h
          | fail m2 c2 =>
            rw [hr] at h
            dsimp only [] at h
            injection h with h1 h2
            subst h1
            exact ihP (lvl - 1) (cur + 1) m2 c2 hr
          | panicked => rw [hr] at h; dsimp only [] at h; exact PRes.noConfusion h
          | fuelOut => rw [hr] at h; dsimp only [] at h; exact PRes.noConfusion h
        | false =>
          rw [hm] at h
          dsimp only [] at h
          exact PRes.noConfusion h
    · -- primaryF
      intro cur m c h
      simp only [primaryF] at h
      cases hm1 : matchesF ts cur [.False] with
      | none => rw [hm1] at h; exact PRes.noConfusion h
      | some bc =>
        obtain ⟨b, c'⟩ := bc
        cases b with
        | true => rw [hm1] at h; dsimp only [] at h; exact PRes.noConfusion h
        | false =>
        rw [hm1] at h; dsimp only [] at h
        cases hm2 : matchesF ts cur [.True] with
        | none => rw [hm2] at h; exact PRes.noConfusion h
        | some bc2 =>
          obtain ⟨b2, c2⟩ := bc2
          cases b2 with
          | true => rw [hm2] at h; dsimp only [] at h; exact PRes.noConfusion h
          | false =>
          rw [hm2] at h; dsimp only [] at h
          cases hm3 : matchesF ts cur [.Nil] with
          | none => rw [hm3] at h; exact PRes.noConfusion h
          | some bc3 =>
            obtain ⟨b3, c3⟩ := bc3
            cases b3 with
            | true => rw [hm3] at h; dsimp only [] at h; exact PRes.noConfusion h
            | false =>
            rw [hm3] at h; dsimp only [] at h
            cases hm4 : matchesF ts cur [.Number] with
            | none => rw [hm4] at h; exact PRes.noConfusion h
            | some bc4 =>
              obtain ⟨b4, c4⟩ := bc4
              cases b4 with
              | true =>
                obtain ⟨t, hg, hmem, hne, rfl⟩ := matchesF_true hm4
                simp only [List.mem_singleton] at hmem
                obtain ⟨v, hv⟩ := payload_number (hinv t (List.get?_mem hg)) hmem
                rw [hm4] at h
                dsimp only [] at h
                rw [Nat.add_sub_cancel, hg] at h
                dsimp only [] at h
                rw [hv] at h
                dsimp only [] at h
                exact PRes.noConfusion h
              | false =>
              rw [hm4] at h; dsimp only [] at h
              cases hm5 : matchesF ts cur [.String] with
              | none => rw [hm5] at h; exact PRes.noConfusion h
              | some bc5 =>
                obtain ⟨b5, c5⟩ := bc5
                cases b5 with
                | true =>
                  obtain ⟨t, hg, hmem, hne, rfl⟩ := matchesF_true hm5
                  simp only [List.mem_singleton] at hmem
                  obtain ⟨s, hs⟩ := payload_string (hinv t (List.get?_mem hg)) hmem
                  rw [hm5] at h
                  dsimp only [] at h
                  rw [Nat.add_sub_cancel, hg] at h
                  dsimp only [] at h
                  rw [hs] at h
                  dsimp only [] at h
                  exact PRes.noConfusion h
                | false =>
                rw [hm5] at h; dsimp only [] at h
                cases hm6 : matchesF ts cur [.LeftParen] with
                | none => rw [hm6] at h; exact PRes.noConfusion h
                | some bc6 =>
                  obtain ⟨b6, c6⟩ := bc6
                  cases b6 with
                  | true =>
                    obtain ⟨t, hg, hmem, hne, rfl⟩ := matchesF_true hm6
                    rw [hm6] at h
                    dsimp only [] at h
                    cases hr : parseLevel ts f 6 (cur + 1) with
                    | ok e1 cur2 =>
                      rw [hr] at h
                      dsimp only [] at h
                      cases hc2 : checkF ts cur2 .RightParen with
                      | none => rw [hc2] at h; exact PRes.noConfusion h
                      | some b7 =>
                        cases b7 with
                        | true =>
                          rw [hc2] at h
                          dsimp only [] at h
                          cases ha : advanceF ts cur2 with
                          | none => rw [ha] at h; exact PRes.noConfusion h
                          | some p =>
                            obtain ⟨u, cur3⟩ := p
                            rw [ha] at h
                            dsimp only [] at h
                            exact PRes.noConfusion h
                        | false =>
                          rw [hc2] at h
                          dsimp only [] at h
                          injection h with h1 h2
                          subst h1
                          exact Or.inl rfl
                    | fail m2 c7 =>
                      rw [hr] at h
                      dsimp only [] at h
                      injection h with h1 h2
                      subst h1
                      exact ihP 6 (cur + 1) m2 c7 hr
                    | panicked => rw [hr] at h; dsimp only [] at h; exact PRes.noConfusion h
                    | fuelOut => rw [hr] at h; dsimp only [] at h; exact PRes.noConfusion h
                  | false =>
                    rw [hm6] at h
                    dsimp only [] at h
                    injection h with h1 h2
                    subst h1
                    exact Or.inr rfl

/-- C9: every `Number` token the scanner emits carries a `Number` payload
and every `String` token carries a `Str` payload; consequently, on such
token lists the parser's internal payload-mismatch errors ("error parsing
Number" / "error parsing Strings") can never be produced. -/
theorem claim_C9_scanner_payload_invariant :
    (∀ src ts es, scanSource src = some (ts, es) →
      ∀ t ∈ ts, payloadInvB t = true) ∧
    (∀ ts : List Token, (∀ t ∈ ts, payloadInvB t = true) →
      ∀ f lvl cur m c, parseLevel ts f lvl cur = .fail m c →
        m ≠ "error parsing Number" ∧ m ≠ "error parsing Strings") := by
  constructor
  · intro src ts es h
    unfold scanSource at h
    cases hs : scanLoop src.toList (src.toList.length + 1) 0 1 [] [] with
    | ok ts' es' =>
      rw [hs] at h
      cases h
      exact scanLoop_payload src.toList _ 0 1 [] [] ts es
        (fun t ht => absurd ht (List.not_mem_nil t)) hs
    | panicked => rw [hs] at h; exact Option.noConfusion h
    | fuelOut => rw [hs] at h; exact Option.noConfusion h
  · intro ts hinv f lvl cur m c h
    have hmsg := (parse_msgs ts hinv f).1 lvl cur m c h
    rcases hmsg with rfl | rfl
    · exact ⟨by decide, by decide⟩
    · exact ⟨by decide, by decide⟩

/-- Witness for C9: the scan of `"1;"` completes and each of its tokens
satisfies the payload invariant. -/
theorem claim_C9_scanner_payload_invariant_witness :
    ∀ t ∈ [Token.mk .Number ['1'] (.Number 1) 1,
           Token.mk .Semicolon [';'] .Null 1, Token.mk .EOF [] .Null 1],
      payloadInvB t = true :=
  claim_C9_scanner_payload_invariant.1 "1;" _ [] (by with_unfolding_all decide)

end RLox
